import Mathlib

/-!
# Verification of the in-memory document search engine

A shallow embedding of the C++ sources `search_server.h`, `search_server.cpp`,
`concurrent_map.h` of the search-server repository, together with proofs about
the embedded operations.

Modelling conventions:
* `std::map<K, V>` is embedded as an association list `List (K × V)` kept
  sorted by key (its iteration order); `std::set` as a sorted `List`.
* `double` is embedded as `ℚ` (exact arithmetic).  The floating-point
  accumulation-order differences the spec tolerates via `EPSILON` all vanish
  in exact arithmetic.
* `log` (used only inside `ComputeWordInverseDocumentFreq`) is not rational;
  the ranking functions therefore take the inverse-document-frequency map
  `idf : Nat → Nat → ℚ` (arguments: `GetDocumentCount()` and the number of
  documents containing the word) as an explicit parameter, and the ranking
  theorems hold for every such function.
* parallel `std::for_each` / `std::transform` loops are embedded as in-order
  folds; every such loop in the source either writes to disjoint locations or
  performs commutative updates, so the fold is observably equivalent to any
  interleaving (in exact arithmetic).
* fallible operations (C++ `throw`) return `Except String`.
-/

attribute [local semireducible] Rat.add Rat.mul Rat.sub Rat.inv

set_option genSizeOf false
set_option genSizeOfSpec false
set_option genInjectivity false

/-! ## Ordered association maps (the embedding of `std::map`) -/

/-- The key comparator of a `std::map` (its `Compare` template parameter):
an executable strict order agreeing with the mathematical one. -/
class LtCmp (K : Type) [LinearOrder K] where
  ltb : K → K → Bool
  ltb_iff : ∀ a b : K, ltb a b = true ↔ a < b

theorem ltb_true {K : Type} [LinearOrder K] [LtCmp K] {a b : K} (h : a < b) :
    LtCmp.ltb a b = true := (LtCmp.ltb_iff a b).mpr h

theorem ltb_false {K : Type} [LinearOrder K] [LtCmp K] {a b : K} (h : ¬a < b) :
    LtCmp.ltb a b = false := by
  rcases Bool.eq_false_or_eq_true (LtCmp.ltb a b) with hb | hb
  · exact absurd ((LtCmp.ltb_iff a b).mp hb) h
  · exact hb

/-- `std::less<int>`. -/
instance : LtCmp Int := ⟨fun a b => decide (a < b), fun a b => by simp⟩

/-- `std::less<std::string>`: lexicographic comparison. -/
def strLt (a b : String) : Bool := decide (a.toList < b.toList)

instance : LtCmp String :=
  ⟨strLt, fun a b => by simp [strLt, String.lt_iff_toList_lt]⟩

/-- Lookup in an association list (`std::map::find` / `count`/`at`). -/
def mapFind? {K V : Type} [LinearOrder K] [DecidableEq K] :
    List (K × V) → K → Option V
  | [], _ => none
  | (k', v') :: rest, k => if k = k' then some v' else mapFind? rest k

/-- Insert-or-assign at a key, keeping the list sorted
(`std::map::operator[]` followed by assignment). -/
def mapSet {K V : Type} [LinearOrder K] [DecidableEq K] [LtCmp K] :
    List (K × V) → K → V → List (K × V)
  | [], k, v => [(k, v)]
  | (k', v') :: rest, k, v =>
    if LtCmp.ltb k k' then (k, v) :: (k', v') :: rest
    else if k = k' then (k, v) :: rest
    else (k', v') :: mapSet rest k v

/-- Remove a key (`std::map::erase`). -/
def mapErase {K V : Type} [LinearOrder K] [DecidableEq K] :
    List (K × V) → K → List (K × V)
  | [], _ => []
  | (k', v') :: rest, k => if k = k' then rest else (k', v') :: mapErase rest k

/-- Insert keeping an existing binding (`std::map::insert` / `emplace`:
does nothing when the key is already present). -/
def mapInsert? {K V : Type} [LinearOrder K] [DecidableEq K] [LtCmp K] :
    List (K × V) → K → V → List (K × V)
  | [], k, v => [(k, v)]
  | (k', v') :: rest, k, v =>
    if LtCmp.ltb k k' then (k, v) :: (k', v') :: rest
    else if k = k' then (k', v') :: rest
    else (k', v') :: mapInsert? rest k v

/-- `m[k] += v` on a `std::map<K, double>` (absent keys start at zero). -/
def mapAddAt {K : Type} [LinearOrder K] [DecidableEq K] [LtCmp K]
    (m : List (K × ℚ)) (k : K) (v : ℚ) : List (K × ℚ) :=
  mapSet m k (((mapFind? m k).getD 0) + v)

/-- The iteration order of a `std::map` is strictly increasing in the key. -/
def SortedKeys {K V : Type} [LinearOrder K] (m : List (K × V)) : Prop :=
  m.Pairwise (fun a b => a.1 < b.1)

/-- Sum of all stored values. -/
def freqSum {K : Type} (m : List (K × ℚ)) : ℚ := (m.map Prod.snd).sum
theorem mapFind?_set {K V : Type} [LinearOrder K] [DecidableEq K] [LtCmp K]
    (m : List (K × V)) (k : K) (v : V) (k' : K) :
    mapFind? (mapSet m k v) k' = if k' = k then some v else mapFind? m k' := by
  induction m with
  | nil => by_cases h : k' = k <;> simp [mapSet, mapFind?, h]
  | cons p rest ih =>
    obtain ⟨k0, v0⟩ := p
    by_cases h1 : k < k0
    · by_cases h : k' = k <;> simp [mapSet, mapFind?, ltb_true h1, h]
    · by_cases h2 : k = k0
      · subst h2
        by_cases h : k' = k <;> simp [mapSet, mapFind?, ltb_false h1, h]
      · have h4 : ¬k0 = k := fun he => h2 he.symm
        by_cases h : k' = k
        · subst h
          simp [mapSet, mapFind?, ltb_false h1, h2, ih]
        · by_cases h3 : k' = k0 <;>
            simp [mapSet, mapFind?, ltb_false h1, h2, h3, h4, ih, h]

theorem mapFind?_eq_none_of_forall {K V : Type} [LinearOrder K] [DecidableEq K]
    (m : List (K × V)) (k : K) (h : ∀ p ∈ m, p.1 ≠ k) : mapFind? m k = none := by
  induction m with
  | nil => rfl
  | cons p rest ih =>
    obtain ⟨k0, v0⟩ := p
    have hk : ¬k = k0 := fun he => (h (k0, v0) (by simp)) he.symm
    simp only [mapFind?, if_neg hk]
    exact ih fun q hq => h q (by simp [hq])

theorem mem_of_mapFind?_eq_some {K V : Type} [LinearOrder K] [DecidableEq K]
    {m : List (K × V)} {k : K} {v : V} (h : mapFind? m k = some v) : (k, v) ∈ m := by
  induction m with
  | nil => simp [mapFind?] at h
  | cons p rest ih =>
    obtain ⟨k0, v0⟩ := p
    by_cases hk : k = k0
    · subst hk
      simp [mapFind?] at h
      simp [h]
    · simp only [mapFind?, if_neg hk] at h
      exact List.mem_cons_of_mem _ (ih h)

theorem mapFind?_isSome_of_mem {K V : Type} [LinearOrder K] [DecidableEq K]
    {m : List (K × V)} {k : K} {v : V} (h : (k, v) ∈ m) : (mapFind? m k).isSome := by
  induction m with
  | nil => simp at h
  | cons p rest ih =>
    obtain ⟨k0, v0⟩ := p
    by_cases hk : k = k0
    · simp [mapFind?, hk]
    · rcases List.mem_cons.mp h with h | h
      · exact absurd (congrArg Prod.fst h) hk
      · simp only [mapFind?, if_neg hk]
        exact ih h

theorem mapFind?_erase {K V : Type} [LinearOrder K] [DecidableEq K] {m : List (K × V)}
    (hs : SortedKeys m) (k k' : K) :
    mapFind? (mapErase m k) k' = if k' = k then none else mapFind? m k' := by
  induction m with
  | nil => by_cases h : k' = k <;> simp [mapErase, mapFind?, h]
  | cons p rest ih =>
    obtain ⟨k0, v0⟩ := p
    have hs' : SortedKeys rest := hs.tail
    by_cases h0 : k = k0
    · subst h0
      simp only [mapErase, if_pos rfl]
      by_cases h : k' = k
      · subst h
        simp only [if_pos rfl]
        exact mapFind?_eq_none_of_forall rest k' fun q hq =>
          ne_of_gt ((List.pairwise_cons.mp hs).1 q hq)
      · simp [mapFind?, h]
    · simp only [mapErase, if_neg h0]
      by_cases h : k' = k
      · have h4 : ¬k' = k0 := fun he => h0 (h.symm.trans he)
        have h5 := ih hs'
        rw [h] at h5
        simp only [if_pos rfl] at h5
        simp [mapFind?, h0, h4, h5, h]
      · by_cases h3 : k' = k0
        · have h5 : ¬k0 = k := fun he => h (h3.trans he)
          simp [mapFind?, h3, h5]
        · simp [mapFind?, h3, ih hs', h]

theorem mapFind?_insert? {K V : Type} [LinearOrder K] [DecidableEq K] [LtCmp K]
    {m : List (K × V)} (hs : SortedKeys m) (k : K) (v : V) (k' : K) :
    mapFind? (mapInsert? m k v) k' =
      if k' = k then some ((mapFind? m k).getD v) else mapFind? m k' := by
  induction m with
  | nil => by_cases h : k' = k <;> simp [mapInsert?, mapFind?, h]
  | cons p rest ih =>
    obtain ⟨k0, v0⟩ := p
    have hs' : SortedKeys rest := hs.tail
    by_cases h1 : k < k0
    · have hne : ¬k = k0 := ne_of_lt h1
      have hrest : mapFind? rest k = none :=
        mapFind?_eq_none_of_forall _ _ fun q hq =>
          ne_of_gt (h1.trans ((List.pairwise_cons.mp hs).1 q hq))
      by_cases h : k' = k <;> simp [mapInsert?, mapFind?, ltb_true h1, h, hne, hrest]
    · by_cases h2 : k = k0
      · subst h2
        by_cases h : k' = k <;> simp [mapInsert?, mapFind?, ltb_false h1, h]
      · have h4 : ¬k0 = k := fun he => h2 he.symm
        by_cases h : k' = k
        · subst h
          simp [mapInsert?, mapFind?, ltb_false h1, h2, ih hs']
        · by_cases h3 : k' = k0 <;>
            simp [mapInsert?, mapFind?, ltb_false h1, h2, h3, h4, ih hs', h]

theorem mem_mapSet {K V : Type} [LinearOrder K] [DecidableEq K] [LtCmp K]
    {m : List (K × V)} {k : K} {v : V}
    {p : K × V} (h : p ∈ mapSet m k v) : p = (k, v) ∨ p ∈ m := by
  induction m with
  | nil => simpa [mapSet] using h
  | cons q rest ih =>
    obtain ⟨k0, v0⟩ := q
    by_cases h1 : k < k0
    · simp only [mapSet, ltb_true h1, if_pos] at h
      rcases List.mem_cons.mp h with h | h
      · exact Or.inl h
      · exact Or.inr h
    · by_cases h2 : k = k0
      · simp only [mapSet, ltb_false h1, Bool.false_eq_true, if_false, if_pos h2] at h
        rcases List.mem_cons.mp h with h | h
        · exact Or.inl (by simp [h, h2])
        · exact Or.inr (by simp [h])
      · simp only [mapSet, ltb_false h1, Bool.false_eq_true, if_false, if_neg h2] at h
        rcases List.mem_cons.mp h with h | h
        · exact Or.inr (by simp [h])
        · rcases ih h with h | h
          · exact Or.inl h
          · exact Or.inr (by simp [h])

theorem mem_mapInsert? {K V : Type} [LinearOrder K] [DecidableEq K] [LtCmp K]
    {m : List (K × V)} {k : K} {v : V}
    {p : K × V} (h : p ∈ mapInsert? m k v) : p = (k, v) ∨ p ∈ m := by
  induction m with
  | nil => simpa [mapInsert?] using h
  | cons q rest ih =>
    obtain ⟨k0, v0⟩ := q
    by_cases h1 : k < k0
    · simp only [mapInsert?, ltb_true h1, if_pos] at h
      rcases List.mem_cons.mp h with h | h
      · exact Or.inl h
      · exact Or.inr h
    · by_cases h2 : k = k0
      · simp only [mapInsert?, ltb_false h1, Bool.false_eq_true, if_false, if_pos h2] at h
        exact Or.inr h
      · simp only [mapInsert?, ltb_false h1, Bool.false_eq_true, if_false, if_neg h2] at h
        rcases List.mem_cons.mp h with h | h
        · exact Or.inr (by simp [h])
        · rcases ih h with h | h
          · exact Or.inl h
          · exact Or.inr (by simp [h])

theorem SortedKeys_set {K V : Type} [LinearOrder K] [DecidableEq K] [LtCmp K]
    {m : List (K × V)} (hs : SortedKeys m) (k : K) (v : V) :
    SortedKeys (mapSet m k v) := by
  induction m with
  | nil => simp [mapSet, SortedKeys]
  | cons p rest ih =>
    obtain ⟨k0, v0⟩ := p
    obtain ⟨hhead, htail⟩ := List.pairwise_cons.mp hs
    by_cases h1 : k < k0
    · simp only [mapSet, ltb_true h1, if_pos]
      refine List.pairwise_cons.mpr ⟨?_, hs⟩
      intro q hq
      rcases List.mem_cons.mp hq with h | h
      · simpa [h] using h1
      · exact h1.trans (hhead q h)
    · by_cases h2 : k = k0
      · subst h2
        simp only [mapSet, ltb_false h1, Bool.false_eq_true, if_false, if_pos rfl]
        exact List.pairwise_cons.mpr ⟨hhead, htail⟩
      · simp only [mapSet, ltb_false h1, Bool.false_eq_true, if_false, if_neg h2]
        refine List.pairwise_cons.mpr ⟨?_, ih htail⟩
        intro q hq
        rcases mem_mapSet hq with h | h
        · have : k0 < k := lt_of_le_of_ne (not_lt.mp h1) fun he => h2 he.symm
          simpa [h] using this
        · exact hhead q h

theorem SortedKeys_insert? {K V : Type} [LinearOrder K] [DecidableEq K] [LtCmp K]
    {m : List (K × V)} (hs : SortedKeys m) (k : K) (v : V) :
    SortedKeys (mapInsert? m k v) := by
  induction m with
  | nil => simp [mapInsert?, SortedKeys]
  | cons p rest ih =>
    obtain ⟨k0, v0⟩ := p
    obtain ⟨hhead, htail⟩ := List.pairwise_cons.mp hs
    by_cases h1 : k < k0
    · simp only [mapInsert?, ltb_true h1, if_pos]
      refine List.pairwise_cons.mpr ⟨?_, hs⟩
      intro q hq
      rcases List.mem_cons.mp hq with h | h
      · simpa [h] using h1
      · exact h1.trans (hhead q h)
    · by_cases h2 : k = k0
      · subst h2
        simp only [mapInsert?, ltb_false h1, Bool.false_eq_true, if_false, if_pos rfl]
        exact List.pairwise_cons.mpr ⟨hhead, htail⟩
      · simp only [mapInsert?, ltb_false h1, Bool.false_eq_true, if_false, if_neg h2]
        refine List.pairwise_cons.mpr ⟨?_, ih htail⟩
        intro q hq
        rcases mem_mapInsert? hq with h | h
        · have : k0 < k := lt_of_le_of_ne (not_lt.mp h1) fun he => h2 he.symm
          simpa [h] using this
        · exact hhead q h

theorem mapErase_sublist {K V : Type} [LinearOrder K] [DecidableEq K]
    (m : List (K × V)) (k : K) : (mapErase m k).Sublist m := by
  induction m with
  | nil => simp [mapErase]
  | cons p rest ih =>
    obtain ⟨k0, v0⟩ := p
    by_cases h : k = k0
    · simp only [mapErase, h, if_pos]
      exact List.sublist_cons_self (k0, v0) rest
    · simpa [mapErase, h] using ih.cons₂ (k0, v0)

theorem SortedKeys_erase {K V : Type} [LinearOrder K] [DecidableEq K]
    {m : List (K × V)} (hs : SortedKeys m) (k : K) : SortedKeys (mapErase m k) :=
  hs.sublist (mapErase_sublist m k)

theorem mapErase_of_find?_none {K V : Type} [LinearOrder K] [DecidableEq K]
    {m : List (K × V)} {k : K} (h : mapFind? m k = none) : mapErase m k = m := by
  induction m with
  | nil => rfl
  | cons p rest ih =>
    obtain ⟨k0, v0⟩ := p
    by_cases hk : k = k0
    · simp [mapFind?, hk] at h
    · simp only [mapFind?, if_neg hk] at h
      simp [mapErase, hk, ih h]

theorem mapExt {K V : Type} [LinearOrder K] [DecidableEq K] :
    ∀ {m1 m2 : List (K × V)}, SortedKeys m1 → SortedKeys m2 →
      (∀ k, mapFind? m1 k = mapFind? m2 k) → m1 = m2
  | [], [], _, _, _ => rfl
  | [], (k2, v2) :: t2, _, _, h => by
    have := h k2
    simp [mapFind?] at this
  | (k1, v1) :: t1, [], _, _, h => by
    have := h k1
    simp [mapFind?] at this
  | (k1, v1) :: t1, (k2, v2) :: t2, hs1, hs2, h => by
    have hne1 : ∀ q ∈ t1, k1 < q.1 := (List.pairwise_cons.mp hs1).1
    have hne2 : ∀ q ∈ t2, k2 < q.1 := (List.pairwise_cons.mp hs2).1
    have hk : k1 = k2 := by
      rcases lt_trichotomy k1 k2 with hlt | heq | hgt
      · exfalso
        have hnone : mapFind? ((k2, v2) :: t2) k1 = none := by
          refine mapFind?_eq_none_of_forall _ _ fun q hq => ?_
          rcases List.mem_cons.mp hq with hq | hq
          · exact ne_of_gt (by simpa [hq] using hlt)
          · exact ne_of_gt (hlt.trans (hne2 q hq))
        have h1 := h k1
        rw [hnone] at h1
        simp [mapFind?] at h1
      · exact heq
      · exfalso
        have hnone : mapFind? ((k1, v1) :: t1) k2 = none := by
          refine mapFind?_eq_none_of_forall _ _ fun q hq => ?_
          rcases List.mem_cons.mp hq with hq | hq
          · exact ne_of_gt (by simpa [hq] using hgt)
          · exact ne_of_gt (hgt.trans (hne1 q hq))
        have h1 := h k2
        rw [hnone] at h1
        simp [mapFind?] at h1
    subst hk
    have hv : v1 = v2 := by
      have h1 := h k1
      simpa [mapFind?] using h1
    subst hv
    have ht : t1 = t2 := by
      refine mapExt hs1.tail hs2.tail fun k => ?_
      by_cases hk : k = k1
      · subst hk
        rw [mapFind?_eq_none_of_forall t1 k fun q hq => ne_of_gt (hne1 q hq),
          mapFind?_eq_none_of_forall t2 k fun q hq => ne_of_gt (hne2 q hq)]
      · have h1 := h k
        simpa [mapFind?, hk] using h1
    rw [ht]

theorem freqSum_mapAddAt {K : Type} [LinearOrder K] [DecidableEq K] [LtCmp K]
    {m : List (K × ℚ)} (hs : SortedKeys m) (k : K) (v : ℚ) :
    freqSum (mapAddAt m k v) = freqSum m + v := by
  induction m with
  | nil => simp [mapAddAt, mapSet, mapFind?, freqSum]
  | cons p rest ih =>
    obtain ⟨k0, v0⟩ := p
    have hs' : SortedKeys rest := hs.tail
    by_cases h1 : k < k0
    · have hnone : mapFind? ((k0, v0) :: rest) k = none := by
        refine mapFind?_eq_none_of_forall _ _ fun q hq => ?_
        rcases List.mem_cons.mp hq with h | h
        · exact ne_of_gt (by simpa [h] using h1)
        · exact ne_of_gt (h1.trans ((List.pairwise_cons.mp hs).1 q h))
      simp only [mapAddAt, mapSet, ltb_true h1, if_pos, hnone]
      simp [freqSum]
      ring
    · by_cases h2 : k = k0
      · subst h2
        simp only [mapAddAt, mapSet, ltb_false h1, Bool.false_eq_true, if_false,
          if_pos rfl, mapFind?]
        simp [freqSum]
        ring
      · have hfind : mapFind? ((k0, v0) :: rest) k = mapFind? rest k := by
          simp [mapFind?, h2]
        simp only [mapAddAt, mapSet, ltb_false h1, Bool.false_eq_true, if_false,
          if_neg h2, hfind]
        have := ih hs'
        simp only [mapAddAt] at this
        simp only [freqSum, List.map_cons, List.sum_cons] at this ⊢
        rw [this]
        ring

/-! ## Domain data types -/

/-- Modelled from the spec: the document status domain of the absent
`document.h` header — "Document status domain: {ACTUAL, IRRELEVANT,
BANNED, REMOVED}". -/
inductive DocumentStatus
  | ACTUAL
  | IRRELEVANT
  | BANNED
  | REMOVED

/-- Per-document payload held by the index (`SearchServer::DocumentData`). -/
structure DocumentData where
  rating : Int
  status : DocumentStatus

instance : Inhabited DocumentData := ⟨⟨0, DocumentStatus.ACTUAL⟩⟩

/-- Modelled from the spec: the relevance result record of the absent
`document.h` header — "(id, relevance: float, rating: int)". -/
structure Document where
  id : Int
  relevance : ℚ
  rating : Int

/-- `SearchServer::QueryWord`. -/
structure QueryWord where
  data : String
  is_minus : Bool
  is_stop : Bool

/-- `SearchServer::Query`. -/
structure Query where
  plus_words : List String
  minus_words : List String

/-! ## String processing (modelled from the spec) -/

/-- Helper for `SplitIntoWords`: walks the character list accumulating the
current word (in reverse). -/
def splitAuxW : List Char → List Char → List String
  | [], [] => []
  | [], acc => [String.mk acc.reverse]
  | c :: rest, acc =>
    if c = ' ' then
      (if acc = [] then splitAuxW rest [] else String.mk acc.reverse :: splitAuxW rest [])
    else splitAuxW rest (c :: acc)

/-- Modelled from the spec: `SplitIntoWords` of the absent
`string_processing.h` header — "split(text) → sequence of
whitespace-delimited tokens" (empty tokens dropped). -/
def SplitIntoWords (text : String) : List String := splitAuxW text.toList []

/-- Modelled from the spec: `MakeUniqueNonEmptyStrings` of the absent
`string_processing.h` header — the stop-word container keeps the distinct
non-empty strings. -/
def MakeUniqueNonEmptyStrings (strings : List String) : List String :=
  (strings.filter (fun w => w ≠ "")).dedup

/-- `SearchServer::IsValidWord`: no control characters (codepoints < 0x20). -/
def IsValidWord (word : String) : Bool :=
  word.toList.all (fun c => !(c.toNat < 32))

/-! ## The SearchServer state -/

/-- The private state of `class SearchServer`. -/
structure SearchServer where
  stop_words_ : List String
  word_to_document_freqs_ : List (String × List (Int × ℚ))
  document_to_word_freqs_ : List (Int × List (String × ℚ))
  documents_ : List (Int × DocumentData)
  document_ids_ : List Int

/-- The `SearchServer(stop_words)` constructor: validates the stop words and
starts from empty indexes. -/
def mkSearchServer (stop_words : List String) : Except String SearchServer :=
  let sw := MakeUniqueNonEmptyStrings stop_words
  if sw.all IsValidWord then .ok ⟨sw, [], [], [], []⟩
  else .error "Some of stop words are invalid"

/-- `SearchServer::IsStopWord`. -/
def SearchServer.IsStopWord (s : SearchServer) (word : String) : Bool :=
  s.stop_words_.contains word

/-- `SearchServer::GetDocumentCount`. -/
def SearchServer.GetDocumentCount (s : SearchServer) : Nat :=
  s.documents_.length

/-- `SearchServer::GetWordFrequencies`: the word→frequency view of one
document, or the empty map sentinel when the id is absent. -/
def SearchServer.GetWordFrequencies (s : SearchServer) (document_id : Int) :
    List (String × ℚ) :=
  (mapFind? s.document_to_word_freqs_ document_id).getD []

/-- `SearchServer::SplitIntoWordsNoStop` on an already-split word list:
throws at the first invalid word, drops stop words. -/
def noStopAux (s : SearchServer) : List String → Except String (List String)
  | [] => .ok []
  | w :: rest =>
    if IsValidWord w = false then .error ("Word " ++ w ++ " is invalid")
    else
      match noStopAux s rest with
      | .error e => .error e
      | .ok ws => .ok (if s.IsStopWord w then ws else w :: ws)

/-- `SearchServer::SplitIntoWordsNoStop`. -/
def SearchServer.SplitIntoWordsNoStop (s : SearchServer) (text : String) :
    Except String (List String) :=
  noStopAux s (SplitIntoWords text)

/-- `SearchServer::ComputeAverageRating`: integer mean with C++ `int`
division (truncation toward zero). -/
def ComputeAverageRating (ratings : List Int) : Int :=
  Int.tdiv ratings.sum (ratings.length : Int)

/-- First character of a word (`word[0]` on a non-empty `std::string`). -/
def strFront (t : String) : Char := t.toList.headD default

/-- `word.substr(1)`. -/
def strDropFirst (t : String) : String := String.mk t.toList.tail

/-- `SearchServer::ParseQueryWord`. -/
def SearchServer.ParseQueryWord (s : SearchServer) (text : String) :
    Except String QueryWord :=
  if text = "" then .error "Query word is empty"
  else
    let is_minus := strFront text = '-'
    let word := if is_minus then strDropFirst text else text
    if word = "" ∨ strFront word = '-' ∨ IsValidWord word = false then
      .error ("Query word " ++ text ++ " is invalid")
    else .ok ⟨word, is_minus, s.IsStopWord word⟩

/-- The word-classification loop of `SearchServer::ParseQuery`: returns the
plus-word and minus-word vectors in encounter order. -/
def parseWordsAux (s : SearchServer) : List String → Except String (List String × List String)
  | [] => .ok ([], [])
  | w :: rest =>
    match s.ParseQueryWord w with
    | .error e => .error e
    | .ok qw =>
      match parseWordsAux s rest with
      | .error e => .error e
      | .ok (plus, minus) =>
        if qw.is_stop then .ok (plus, minus)
        else if qw.is_minus then .ok (plus, qw.data :: minus)
        else .ok (qw.data :: plus, minus)

/-- Insertion step of the comparator-driven sort embedding `std::sort`. -/
def insertCmp {α : Type} (cmp : α → α → Bool) (x : α) : List α → List α
  | [] => [x]
  | y :: ys => if cmp x y then x :: y :: ys else y :: insertCmp cmp x ys

/-- Deterministic comparator-driven sort embedding `std::sort` (both
policies sort with the same comparator, so both are embedded by the same
deterministic function). -/
def sortCmp {α : Type} (cmp : α → α → Bool) : List α → List α
  | [] => []
  | x :: xs => insertCmp cmp x (sortCmp cmp xs)

/-- `std::unique` + `erase`: removes adjacent duplicates. -/
def dedupAdj {α : Type} [DecidableEq α] : List α → List α
  | [] => []
  | [a] => [a]
  | a :: b :: rest => if a = b then dedupAdj (b :: rest) else a :: dedupAdj (b :: rest)


/-- `SearchServer::ParseQuery(text, is_parallel)`: classify words, then
sort + dedup both vectors when `is_parallel`. -/
def SearchServer.ParseQuery (s : SearchServer) (text : String) (is_parallel : Bool) :
    Except String Query :=
  match parseWordsAux s (SplitIntoWords text) with
  | .error e => .error e
  | .ok (plus, minus) =>
    if is_parallel then
      .ok ⟨dedupAdj (sortCmp strLt plus), dedupAdj (sortCmp strLt minus)⟩
    else .ok ⟨plus, minus⟩

/-! ## AddDocument / RemoveDocument -/

/-- The indexing loop of `AddDocument`: for each word,
`word_to_document_freqs_[word][document_id] += inv_word_count` and
`document_to_word_freqs_[document_id][word] += inv_word_count`;
the pair argument carries the two maps through the loop. -/
def indexWords (document_id : Int) (inv_word_count : ℚ) :
    List String →
    List (String × List (Int × ℚ)) × List (Int × List (String × ℚ)) →
    List (String × List (Int × ℚ)) × List (Int × List (String × ℚ))
  | [], maps => maps
  | word :: rest, (wtd, dtw) =>
    indexWords document_id inv_word_count rest
      (mapSet wtd word (mapAddAt ((mapFind? wtd word).getD []) document_id inv_word_count),
       mapSet dtw document_id (mapAddAt ((mapFind? dtw document_id).getD []) word inv_word_count))

/-- Sorted insert into `std::set<int>`. -/
def setInsert : List Int → Int → List Int
  | [], x => [x]
  | y :: ys, x => if x < y then x :: y :: ys else if x = y then y :: ys else y :: setInsert ys x

/-- `SearchServer::AddDocument`: validates the id, tokenizes (which may
throw), then mutates the four structures.  All throw sites precede every
mutation in the source, so failure returns the untouched state's error. -/
def SearchServer.AddDocument (s : SearchServer) (document_id : Int) (document : String)
    (status : DocumentStatus) (ratings : List Int) : Except String SearchServer :=
  if document_id < 0 ∨ (mapFind? s.documents_ document_id).isSome then
    .error "Invalid document_id"
  else
    match s.SplitIntoWordsNoStop document with
    | .error e => .error e
    | .ok words =>
      let inv_word_count : ℚ := 1 / (words.length : ℚ)
      let maps := indexWords document_id inv_word_count words
        (s.word_to_document_freqs_, s.document_to_word_freqs_)
      .ok { s with
        word_to_document_freqs_ := maps.1
        document_to_word_freqs_ := maps.2
        documents_ := mapInsert? s.documents_ document_id ⟨ComputeAverageRating ratings, status⟩
        document_ids_ := setInsert s.document_ids_ document_id }

/-- The free helper `AddDocument(search_server, ...)` of the source catches
the exception and leaves the server as it was. -/
def AddDocumentCaught (s : SearchServer) (document_id : Int) (document : String)
    (status : DocumentStatus) (ratings : List Int) : SearchServer :=
  match s.AddDocument document_id document status ratings with
  | .ok s' => s'
  | .error _ => s

/-- The forward-map strip loop of `RemoveDocument`: for each word of the
document, `word_to_document_freqs_[word].erase(document_id)`; the second
argument carries the forward map through the loop. -/
def removeFromWordMap (document_id : Int) :
    List (String × ℚ) → List (String × List (Int × ℚ)) → List (String × List (Int × ℚ))
  | [], wtd => wtd
  | (word, _) :: rest, wtd =>
    removeFromWordMap document_id rest
      (mapSet wtd word (mapErase ((mapFind? wtd word).getD []) document_id))

/-- The parallel-policy strip loop: iterates the same words, collected
into a vector first (embedded in order; each step touches its own word's
bucket, so all interleavings coincide). -/
def removeFromWordMapPar (document_id : Int) :
    List String → List (String × List (Int × ℚ)) → List (String × List (Int × ℚ))
  | [], wtd => wtd
  | word :: rest, wtd =>
    removeFromWordMapPar document_id rest
      (mapSet wtd word (mapErase ((mapFind? wtd word).getD []) document_id))

/-- `SearchServer::RemoveDocument(document_id)` (plain overload): total —
for an absent id `GetWordFrequencies` yields the empty sentinel and every
erase is a no-op. -/
def SearchServer.RemoveDocument (s : SearchServer) (document_id : Int) : SearchServer :=
  { s with
    word_to_document_freqs_ :=
      removeFromWordMap document_id (s.GetWordFrequencies document_id) s.word_to_document_freqs_
    document_to_word_freqs_ := mapErase s.document_to_word_freqs_ document_id
    documents_ := mapErase s.documents_ document_id
    document_ids_ := s.document_ids_.erase document_id }

/-- `RemoveDocument(execution::seq, id)` delegates to the plain overload. -/
def SearchServer.RemoveDocumentSeq (s : SearchServer) (document_id : Int) : SearchServer :=
  s.RemoveDocument document_id

/-- `RemoveDocument(execution::par, id)`. -/
def SearchServer.RemoveDocumentPar (s : SearchServer) (document_id : Int) : SearchServer :=
  let result := (s.GetWordFrequencies document_id).map Prod.fst
  { s with
    word_to_document_freqs_ :=
      removeFromWordMapPar document_id result s.word_to_document_freqs_
    document_to_word_freqs_ := mapErase s.document_to_word_freqs_ document_id
    documents_ := mapErase s.documents_ document_id
    document_ids_ := s.document_ids_.erase document_id }

/-! ## MatchDocument -/

/-- `word_to_document_freqs_.count(word) != 0 &&
word_to_document_freqs_.at(word).count(document_id)`. -/
def wordHasDoc (s : SearchServer) (word : String) (document_id : Int) : Bool :=
  match mapFind? s.word_to_document_freqs_ word with
  | none => false
  | some inner => (mapFind? inner document_id).isSome

/-- The matching loops of the plain `MatchDocument` overload, run against an
already-parsed query: the minus loop returns the (still empty) matched list
at the first hit; the plus loop collects matches in query order. -/
def SearchServer.MatchDocumentCore (s : SearchServer) (query : Query) (document_id : Int) :
    List String × DocumentStatus :=
  if query.minus_words.any (fun word => wordHasDoc s word document_id) then
    ([], ((mapFind? s.documents_ document_id).getD default).status)
  else
    (query.plus_words.filter (fun word => wordHasDoc s word document_id),
      ((mapFind? s.documents_ document_id).getD default).status)

/-- The plain `MatchDocument(raw_query, document_id)` overload.  The source
declares `static const auto& query = ParseQuery(raw_query, true)`: the parsed
query is a function-local static initialized by the first executed call and
reused afterwards.  The static's state is threaded explicitly as
`cached_query` (`none` = not yet initialized).  The id check precedes the
static initializer, and the sequenced-policy overload delegates here. -/
def SearchServer.MatchDocument (s : SearchServer) (cached_query : Option Query)
    (raw_query : String) (document_id : Int) :
    Except String (List String × DocumentStatus) × Option Query :=
  if (s.document_ids_.contains document_id) = false then
    (.error "Invalid document id", cached_query)
  else
    match cached_query with
    | some query => (.ok (s.MatchDocumentCore query document_id), some query)
    | none =>
      match s.ParseQuery raw_query true with
      | .error e => (.error e, none)
      | .ok query => (.ok (s.MatchDocumentCore query document_id), some query)

/-! ## ConcurrentMap (`concurrent_map.h`) -/

/-- `static_cast<uint64_t>(key) % megamap_.size()`. -/
def bucketOf (key : Int) (bucket_count : Nat) : Nat :=
  (key.emod (2 ^ 64)).toNat % bucket_count

/-- `ConcurrentMap<int, double>`: the bucket vector (each bucket's map,
its mutex elided — lock discipline is analysed separately, see
`cmEraseTrace`). -/
structure ConcurrentMapQ where
  megamap_ : List (List (Int × ℚ))

/-- `operator[](key).ref_to_value += v` under the bucket's lock. -/
def cmAdd (cm : ConcurrentMapQ) (key : Int) (v : ℚ) : ConcurrentMapQ :=
  let i := bucketOf key cm.megamap_.length
  ⟨cm.megamap_.set i (mapAddAt (cm.megamap_.getD i []) key v)⟩

/-- `ConcurrentMap::Erase(key)`: every bucket found to contain the key has
it erased. -/
def cmErase (cm : ConcurrentMapQ) (key : Int) : ConcurrentMapQ :=
  ⟨cm.megamap_.map (fun b => if (mapFind? b key).isSome then mapErase b key else b)⟩

/-- `ConcurrentMap::BuildOrdinaryMap`: inserts every bucket's entries into
one ordered map (`std::map::insert` keeps existing keys). -/
def cmBuildOrdinaryMap (cm : ConcurrentMapQ) : List (Int × ℚ) :=
  cm.megamap_.foldl (fun total b => b.foldl (fun t p => mapInsert? t p.1 p.2) total) []

/-- Lookup through the bucket structure. -/
def cmFind? (cm : ConcurrentMapQ) (key : Int) : Option ℚ :=
  mapFind? (cm.megamap_.getD (bucketOf key cm.megamap_.length) []) key

/-- Lock/access events of one `ConcurrentMap` member function, recorded in
program order with the lock-held flag at each action.  Used to analyse the
lock discipline of `Erase`. -/
inductive CMEvent
  | checkPresence (bucket : Nat) (lock_held : Bool)
  | eraseKey (bucket : Nat) (lock_held : Bool)
  | lockAcquire (bucket : Nat)
  | lockRelease (bucket : Nat)

/-- The event trace of `ConcurrentMap::Erase(key)` as written in the source:
for each bucket, `if (item.local.find(key) != item.local.end())` is evaluated
BEFORE the `lock_guard` inside the branch is constructed; `key_present_in i`
says whether the find succeeds in bucket `i`. -/
def cmEraseTrace (bucket_count : Nat) (key_present_in : Nat → Bool) : List CMEvent :=
  (List.range bucket_count).flatMap (fun i =>
    CMEvent.checkPresence i false ::
      (if key_present_in i then
        [CMEvent.lockAcquire i, CMEvent.eraseKey i true, CMEvent.lockRelease i]
      else []))

/-! ## FindAllDocuments / FindTopDocuments -/

/-- `const double EPSILON = 1e-6;`. -/
def EPSILON : ℚ := 1 / 1000000

/-- `const int MAX_RESULT_DOCUMENT_COUNT = 5;`. -/
def MAX_RESULT_DOCUMENT_COUNT : Nat := 5

/-- One plus-word step of the sequential `FindAllDocuments` accumulation
into `std::map<int, double> document_to_relevance`. -/
def accumulateWord (s : SearchServer) (idf : Nat → Nat → ℚ)
    (pred : Int → DocumentStatus → Int → Bool)
    (m : List (Int × ℚ)) (word : String) : List (Int × ℚ) :=
  match mapFind? s.word_to_document_freqs_ word with
  | none => m
  | some inner =>
    let inverse_document_freq := idf s.GetDocumentCount inner.length
    inner.foldl (fun m p =>
      let dd := (mapFind? s.documents_ p.1).getD default
      if pred p.1 dd.status dd.rating then mapAddAt m p.1 (p.2 * inverse_document_freq)
      else m) m

/-- One minus-word step of the sequential `FindAllDocuments`: erase every
document associated with the word. -/
def eraseWordDocs (s : SearchServer) (m : List (Int × ℚ)) (word : String) :
    List (Int × ℚ) :=
  match mapFind? s.word_to_document_freqs_ word with
  | none => m
  | some inner => inner.foldl (fun m p => mapErase m p.1) m

/-- `FindAllDocuments(execution::seq, query, pred)`. -/
def SearchServer.FindAllDocumentsSeq (s : SearchServer) (idf : Nat → Nat → ℚ)
    (query : Query) (pred : Int → DocumentStatus → Int → Bool) : List Document :=
  let document_to_relevance := query.plus_words.foldl (accumulateWord s idf pred) []
  let document_to_relevance := query.minus_words.foldl (eraseWordDocs s) document_to_relevance
  document_to_relevance.map (fun p =>
    ⟨p.1, p.2, ((mapFind? s.documents_ p.1).getD default).rating⟩)

/-- One plus-word step of the parallel `FindAllDocuments`, accumulating into
the `ConcurrentMap` (per-key `+=` commutes in exact arithmetic, so the
parallel `for_each` is embedded as the in-order fold). -/
def accumulateWordCM (s : SearchServer) (idf : Nat → Nat → ℚ)
    (pred : Int → DocumentStatus → Int → Bool)
    (cm : ConcurrentMapQ) (word : String) : ConcurrentMapQ :=
  match mapFind? s.word_to_document_freqs_ word with
  | none => cm
  | some inner =>
    let inverse_document_freq := idf s.GetDocumentCount inner.length
    inner.foldl (fun cm p =>
      let dd := (mapFind? s.documents_ p.1).getD default
      if pred p.1 dd.status dd.rating then cmAdd cm p.1 (p.2 * inverse_document_freq)
      else cm) cm

/-- One minus-word step of the parallel `FindAllDocuments`. -/
def eraseWordDocsCM (s : SearchServer) (cm : ConcurrentMapQ) (word : String) :
    ConcurrentMapQ :=
  match mapFind? s.word_to_document_freqs_ word with
  | none => cm
  | some inner => inner.foldl (fun cm p => cmErase cm p.1) cm

/-- `FindAllDocuments(execution::par, query, pred)` with its
`ConcurrentMap(100)` accumulator. -/
def SearchServer.FindAllDocumentsPar (s : SearchServer) (idf : Nat → Nat → ℚ)
    (query : Query) (pred : Int → DocumentStatus → Int → Bool) : List Document :=
  let buckets : Nat := 100
  let cm0 : ConcurrentMapQ := ⟨List.replicate buckets []⟩
  let cm1 := query.plus_words.foldl (accumulateWordCM s idf pred) cm0
  let cm2 := query.minus_words.foldl (eraseWordDocsCM s) cm1
  let result := cmBuildOrdinaryMap cm2
  result.map (fun p => ⟨p.1, p.2, ((mapFind? s.documents_ p.1).getD default).rating⟩)

/-- The ranking comparator passed to `std::sort` by `FindTopDocuments`. -/
def docCmp (lhs rhs : Document) : Bool :=
  decide (rhs.relevance < lhs.relevance ∨
    (|lhs.relevance - rhs.relevance| < EPSILON ∧ rhs.rating < lhs.rating))

/-- `FindTopDocuments(execution::seq, raw_query, pred)`: parse with
`is_parallel = true` (as the common template does for every policy), rank,
sort, truncate to `MAX_RESULT_DOCUMENT_COUNT`. -/
def SearchServer.FindTopDocumentsSeq (s : SearchServer) (idf : Nat → Nat → ℚ)
    (raw_query : String) (pred : Int → DocumentStatus → Int → Bool) :
    Except String (List Document) :=
  match s.ParseQuery raw_query true with
  | .error e => .error e
  | .ok query =>
    let matched := sortCmp docCmp (s.FindAllDocumentsSeq idf query pred)
    .ok (if MAX_RESULT_DOCUMENT_COUNT < matched.length then
      matched.take MAX_RESULT_DOCUMENT_COUNT else matched)

/-- `FindTopDocuments(execution::par, raw_query, pred)`. -/
def SearchServer.FindTopDocumentsPar (s : SearchServer) (idf : Nat → Nat → ℚ)
    (raw_query : String) (pred : Int → DocumentStatus → Int → Bool) :
    Except String (List Document) :=
  match s.ParseQuery raw_query true with
  | .error e => .error e
  | .ok query =>
    let matched := sortCmp docCmp (s.FindAllDocumentsPar idf query pred)
    .ok (if MAX_RESULT_DOCUMENT_COUNT < matched.length then
      matched.take MAX_RESULT_DOCUMENT_COUNT else matched)

/-! ## Reachable states -/

/-- Index states producible through the public mutating API: construction,
`AddDocument`, and the `RemoveDocument` overloads. -/
inductive Reachable : SearchServer → Prop
  | init (stop_words : List String) (s : SearchServer) :
      mkSearchServer stop_words = .ok s → Reachable s
  | add (s s' : SearchServer) (document_id : Int) (document : String)
      (status : DocumentStatus) (ratings : List Int) :
      Reachable s → s.AddDocument document_id document status ratings = .ok s' →
      Reachable s'
  | remove (s : SearchServer) (document_id : Int) :
      Reachable s → Reachable (s.RemoveDocument document_id)
  | removePar (s : SearchServer) (document_id : Int) :
      Reachable s → Reachable (s.RemoveDocumentPar document_id)

/-! ## Invariants: characterizing the indexing and removal loops -/

/-- The documents-with-frequency map of one word (empty when absent). -/
def innerW (wtd : List (String × List (Int × ℚ))) (w : String) : List (Int × ℚ) :=
  (mapFind? wtd w).getD []

/-- The words-with-frequency map of one document (empty when absent). -/
def innerD (dtw : List (Int × List (String × ℚ))) (id : Int) : List (String × ℚ) :=
  (mapFind? dtw id).getD []

/-- `n` accumulations of `v` on top of an optional current value. -/
def bump (o : Option ℚ) (v : ℚ) (n : Nat) : Option ℚ :=
  if n = 0 then o else some (o.getD 0 + v * n)

theorem innerW_sorted {wtd : List (String × List (Int × ℚ))}
    (h : ∀ p ∈ wtd, SortedKeys p.2) (w : String) : SortedKeys (innerW wtd w) := by
  unfold innerW
  cases hf : mapFind? wtd w with
  | none => simp [SortedKeys]
  | some i => exact h (w, i) (mem_of_mapFind?_eq_some hf)

theorem innerD_sorted {dtw : List (Int × List (String × ℚ))}
    (h : ∀ p ∈ dtw, SortedKeys p.2) (id : Int) : SortedKeys (innerD dtw id) := by
  unfold innerD
  cases hf : mapFind? dtw id with
  | none => simp [SortedKeys]
  | some i => exact h (id, i) (mem_of_mapFind?_eq_some hf)

theorem indexWords_sorted (document_id : Int) (v : ℚ) (words : List String) :
    ∀ wtd dtw, SortedKeys wtd → (∀ p ∈ wtd, SortedKeys p.2) →
      SortedKeys dtw → (∀ p ∈ dtw, SortedKeys p.2) →
      SortedKeys (indexWords document_id v words (wtd, dtw)).1 ∧
        (∀ p ∈ (indexWords document_id v words (wtd, dtw)).1, SortedKeys p.2) ∧
        SortedKeys (indexWords document_id v words (wtd, dtw)).2 ∧
        (∀ p ∈ (indexWords document_id v words (wtd, dtw)).2, SortedKeys p.2) := by
  induction words with
  | nil => intro wtd dtw h1 h2 h3 h4; exact ⟨h1, h2, h3, h4⟩
  | cons w rest ih =>
    intro wtd dtw h1 h2 h3 h4
    refine ih _ _ (SortedKeys_set h1 _ _) ?_ (SortedKeys_set h3 _ _) ?_
    · intro p hp
      rcases mem_mapSet hp with hp | hp
      · rw [hp]
        exact SortedKeys_set (innerW_sorted h2 w) _ _
      · exact h2 p hp
    · intro p hp
      rcases mem_mapSet hp with hp | hp
      · rw [hp]
        exact SortedKeys_set (innerD_sorted h4 document_id) _ _
      · exact h4 p hp

theorem indexWords_outer_dtw (document_id : Int) (v : ℚ) (words : List String) :
    ∀ wtd dtw (id' : Int), id' ≠ document_id →
      mapFind? (indexWords document_id v words (wtd, dtw)).2 id' = mapFind? dtw id' := by
  induction words with
  | nil => intro wtd dtw id' _; rfl
  | cons w rest ih =>
    intro wtd dtw id' hne
    rw [indexWords, ih _ _ _ hne, mapFind?_set, if_neg hne]
theorem bump_step (o : Option ℚ) (v : ℚ) (n : Nat) :
    bump (some (o.getD 0 + v)) v n = bump o v (n + 1) := by
  unfold bump
  rcases Nat.eq_zero_or_pos n with hz | hp
  · subst hz
    simp
  · have hn : ¬n = 0 := Nat.pos_iff_ne_zero.mp hp
    rw [if_neg hn, if_neg (Nat.succ_ne_zero n)]
    refine congrArg some ?_
    simp only [Option.getD_some]
    push_cast
    ring

theorem indexWords_inner_wtd_ne (document_id : Int) (v : ℚ) (words : List String) :
    ∀ wtd dtw (w' : String) (id' : Int), id' ≠ document_id →
      mapFind? (innerW (indexWords document_id v words (wtd, dtw)).1 w') id' =
        mapFind? (innerW wtd w') id' := by
  induction words with
  | nil => intro wtd dtw w' id' _; rfl
  | cons w rest ih =>
    intro wtd dtw w' id' hne
    rw [indexWords, ih _ _ _ _ hne]
    simp only [innerW]
    by_cases hw : w' = w
    · subst hw
      rw [mapFind?_set, if_pos rfl]
      simp only [Option.getD_some]
      rw [mapAddAt, mapFind?_set, if_neg hne]
    · rw [mapFind?_set, if_neg hw]

theorem indexWords_inner_wtd (document_id : Int) (v : ℚ) (words : List String) :
    ∀ wtd dtw (w' : String),
      mapFind? (innerW (indexWords document_id v words (wtd, dtw)).1 w') document_id =
        bump (mapFind? (innerW wtd w') document_id) v (words.count w') := by
  induction words with
  | nil => intro wtd dtw w'; simp [indexWords, bump]
  | cons w rest ih =>
    intro wtd dtw w'
    rw [indexWords, ih]
    simp only [innerW]
    by_cases hw : w' = w
    · subst hw
      rw [mapFind?_set, if_pos rfl]
      simp only [Option.getD_some]
      rw [show mapFind? (mapAddAt ((mapFind? wtd w').getD []) document_id v) document_id
          = some (((mapFind? ((mapFind? wtd w').getD []) document_id).getD 0) + v) by
        rw [mapAddAt, mapFind?_set, if_pos rfl]]
      rw [List.count_cons_self]
      exact bump_step _ v _
    · rw [mapFind?_set, if_neg hw, List.count_cons_of_ne (fun he => hw he) rest]

theorem indexWords_inner_dtw (document_id : Int) (v : ℚ) (words : List String) :
    ∀ wtd dtw (w' : String),
      mapFind? (innerD (indexWords document_id v words (wtd, dtw)).2 document_id) w' =
        bump (mapFind? (innerD dtw document_id) w') v (words.count w') := by
  induction words with
  | nil => intro wtd dtw w'; simp [indexWords, bump]
  | cons w rest ih =>
    intro wtd dtw w'
    rw [indexWords, ih]
    simp only [innerD]
    rw [mapFind?_set, if_pos rfl]
    simp only [Option.getD_some]
    by_cases hw : w' = w
    · subst hw
      rw [show mapFind? (mapAddAt ((mapFind? dtw document_id).getD []) w' v) w'
          = some (((mapFind? ((mapFind? dtw document_id).getD []) w').getD 0) + v) by
        rw [mapAddAt, mapFind?_set, if_pos rfl]]
      rw [List.count_cons_self]
      exact bump_step _ v _
    · rw [show mapFind? (mapAddAt ((mapFind? dtw document_id).getD []) w v) w'
          = mapFind? ((mapFind? dtw document_id).getD []) w' by
        rw [mapAddAt, mapFind?_set, if_neg hw]]
      rw [List.count_cons_of_ne (fun he => hw he) rest]

theorem indexWords_sum (document_id : Int) (v : ℚ) (words : List String) :
    ∀ wtd dtw, (∀ p ∈ dtw, SortedKeys p.2) →
      freqSum (innerD (indexWords document_id v words (wtd, dtw)).2 document_id) =
        freqSum (innerD dtw document_id) + v * words.length := by
  induction words with
  | nil => intro wtd dtw _; simp [indexWords]
  | cons w rest ih =>
    intro wtd dtw h4
    rw [indexWords]
    have hinner : ∀ p ∈ mapSet dtw document_id
        (mapAddAt ((mapFind? dtw document_id).getD []) w v), SortedKeys p.2 := by
      intro p hp
      rcases mem_mapSet hp with hp | hp
      · rw [hp]
        exact SortedKeys_set (innerD_sorted h4 document_id) _ _
      · exact h4 p hp
    rw [ih _ _ hinner]
    have hset : innerD (mapSet dtw document_id
        (mapAddAt ((mapFind? dtw document_id).getD []) w v)) document_id
        = mapAddAt ((mapFind? dtw document_id).getD []) w v := by
      unfold innerD
      rw [mapFind?_set, if_pos rfl]
      rfl
    rw [hset]
    rw [show mapAddAt ((mapFind? dtw document_id).getD []) w v
        = mapAddAt (innerD dtw document_id) w v from rfl]
    rw [freqSum_mapAddAt (innerD_sorted h4 document_id)]
    simp only [List.length_cons]
    push_cast
    ring

theorem removeFromWordMap_sorted (document_id : Int) :
    ∀ (entries : List (String × ℚ)) wtd, SortedKeys wtd →
      (∀ p ∈ wtd, SortedKeys p.2) →
      SortedKeys (removeFromWordMap document_id entries wtd) ∧
        ∀ p ∈ removeFromWordMap document_id entries wtd, SortedKeys p.2 := by
  intro entries
  induction entries with
  | nil => intro wtd h1 h2; exact ⟨h1, h2⟩
  | cons q rest ih =>
    obtain ⟨w, f⟩ := q
    intro wtd h1 h2
    refine ih _ (SortedKeys_set h1 _ _) ?_
    intro p hp
    rcases mem_mapSet hp with hp | hp
    · rw [hp]
      exact SortedKeys_erase (innerW_sorted h2 w) _
    · exact h2 p hp

theorem removeFromWordMap_inner_ne (document_id : Int) :
    ∀ (entries : List (String × ℚ)) wtd, (∀ p ∈ wtd, SortedKeys p.2) →
      ∀ (w' : String) (id' : Int), id' ≠ document_id →
      mapFind? (innerW (removeFromWordMap document_id entries wtd) w') id' =
        mapFind? (innerW wtd w') id' := by
  intro entries
  induction entries with
  | nil => intro wtd _ w' id' _; rfl
  | cons q rest ih =>
    obtain ⟨w, f⟩ := q
    intro wtd h2 w' id' hne
    have h2' : ∀ p ∈ mapSet wtd w (mapErase ((mapFind? wtd w).getD []) document_id),
        SortedKeys p.2 := by
      intro p hp
      rcases mem_mapSet hp with hp | hp
      · rw [hp]
        exact SortedKeys_erase (innerW_sorted h2 w) _
      · exact h2 p hp
    rw [removeFromWordMap, ih _ h2' _ _ hne]
    simp only [innerW]
    by_cases hw : w' = w
    · subst hw
      rw [mapFind?_set, if_pos rfl]
      simp only [Option.getD_some]
      have he := mapFind?_erase (innerW_sorted h2 w') document_id id'
      unfold innerW at he
      rw [he, if_neg hne]
    · rw [mapFind?_set, if_neg hw]

theorem removeFromWordMap_inner (document_id : Int) :
    ∀ (entries : List (String × ℚ)) wtd, (∀ p ∈ wtd, SortedKeys p.2) →
      ∀ (w' : String),
      mapFind? (innerW (removeFromWordMap document_id entries wtd) w') document_id =
        if w' ∈ entries.map Prod.fst then none
        else mapFind? (innerW wtd w') document_id := by
  intro entries
  induction entries with
  | nil => intro wtd _ w'; simp [removeFromWordMap]
  | cons q rest ih =>
    obtain ⟨w, f⟩ := q
    intro wtd h2 w'
    have h2' : ∀ p ∈ mapSet wtd w (mapErase ((mapFind? wtd w).getD []) document_id),
        SortedKeys p.2 := by
      intro p hp
      rcases mem_mapSet hp with hp | hp
      · rw [hp]
        exact SortedKeys_erase (innerW_sorted h2 w) _
      · exact h2 p hp
    rw [removeFromWordMap, ih _ h2']
    by_cases hmem : w' ∈ rest.map Prod.fst
    · rw [if_pos hmem, if_pos (by simp [hmem])]
    · rw [if_neg hmem]
      by_cases hw : w' = w
      · subst hw
        rw [if_pos (by simp)]
        simp only [innerW]
        rw [mapFind?_set, if_pos rfl]
        simp only [Option.getD_some]
        have he := mapFind?_erase (innerW_sorted h2 w') document_id document_id
        unfold innerW at he
        rw [he, if_pos rfl]
      · rw [if_neg (by simp [hw, hmem])]
        simp only [innerW]
        rw [mapFind?_set, if_neg hw]

theorem removeFromWordMapPar_eq (document_id : Int) :
    ∀ (entries : List (String × ℚ)) wtd,
      removeFromWordMapPar document_id (entries.map Prod.fst) wtd =
        removeFromWordMap document_id entries wtd := by
  intro entries
  induction entries with
  | nil => intro wtd; rfl
  | cons q rest ih =>
    obtain ⟨w, f⟩ := q
    intro wtd
    rw [List.map_cons, removeFromWordMapPar, removeFromWordMap, ih]

/-- The parallel-policy overload of `RemoveDocument` produces the same final
state as the plain one (the spec's stated requirement on the parallel
variant). -/
theorem RemoveDocumentPar_eq (s : SearchServer) (document_id : Int) :
    s.RemoveDocumentPar document_id = s.RemoveDocument document_id := by
  simp only [SearchServer.RemoveDocumentPar, SearchServer.RemoveDocument]
  rw [removeFromWordMapPar_eq]

theorem mem_setInsert (l : List Int) (y x : Int) :
    x ∈ setInsert l y ↔ x = y ∨ x ∈ l := by
  induction l with
  | nil => simp [setInsert]
  | cons z zs ih =>
    by_cases h1 : y < z
    · simp [setInsert, h1, or_assoc]
    · by_cases h2 : y = z
      · subst h2
        simp only [setInsert, if_neg h1, if_pos rfl]
        constructor
        · intro h; exact Or.inr h
        · intro h
          rcases h with h | h
          · simp [h]
          · exact h
      · simp only [setInsert, if_neg h1, if_neg h2, List.mem_cons, ih]
        tauto

theorem setInsert_sorted {l : List Int} (hs : l.Pairwise (· < ·)) (y : Int) :
    (setInsert l y).Pairwise (· < ·) := by
  induction l with
  | nil => simp [setInsert]
  | cons z zs ih =>
    obtain ⟨hhead, htail⟩ := List.pairwise_cons.mp hs
    by_cases h1 : y < z
    · simp only [setInsert, if_pos h1]
      refine List.pairwise_cons.mpr ⟨?_, hs⟩
      intro b hb
      rcases List.mem_cons.mp hb with hb | hb
      · rw [hb]; exact h1
      · exact h1.trans (hhead b hb)
    · by_cases h2 : y = z
      · subst h2
        simp only [setInsert, if_neg h1, if_pos rfl]
        exact hs
      · simp only [setInsert, if_neg h1, if_neg h2]
        refine List.pairwise_cons.mpr ⟨?_, ih htail⟩
        intro b hb
        rcases (mem_setInsert zs y b).mp hb with hb | hb
        · rw [hb]
          exact lt_of_le_of_ne (not_lt.mp h1) fun he => h2 he.symm
        · exact hhead b hb

/-! ## The well-formedness invariant of reachable states -/

/-- Structural invariants every state reachable through the public API
satisfies: all maps sorted (`std::map`/`std::set` iteration order), the id
set mirrors the document store, document→term keys are live, the two
frequency maps agree everywhere (dual-index consistency), and every live
document's frequencies sum to 1 unless it indexed no words. -/
structure WF (s : SearchServer) : Prop where
  wtd_sorted : SortedKeys s.word_to_document_freqs_
  wtd_inner_sorted : ∀ p ∈ s.word_to_document_freqs_, SortedKeys p.2
  dtw_sorted : SortedKeys s.document_to_word_freqs_
  dtw_inner_sorted : ∀ p ∈ s.document_to_word_freqs_, SortedKeys p.2
  docs_sorted : SortedKeys s.documents_
  ids_sorted : s.document_ids_.Pairwise (· < ·)
  ids_iff_docs : ∀ id : Int,
    id ∈ s.document_ids_ ↔ (mapFind? s.documents_ id).isSome = true
  dtw_live : ∀ id : Int,
    (mapFind? s.document_to_word_freqs_ id).isSome = true → id ∈ s.document_ids_
  dual : ∀ (w : String) (id : Int),
    mapFind? (innerW s.word_to_document_freqs_ w) id =
      mapFind? (innerD s.document_to_word_freqs_ id) w
  sum_one : ∀ id : Int, id ∈ s.document_ids_ →
    innerD s.document_to_word_freqs_ id = [] ∨
      freqSum (innerD s.document_to_word_freqs_ id) = 1

theorem WF_mkSearchServer {stop_words : List String} {s : SearchServer}
    (h : mkSearchServer stop_words = .ok s) : WF s := by
  unfold mkSearchServer at h
  by_cases hv : (MakeUniqueNonEmptyStrings stop_words).all IsValidWord
  · simp only [hv, if_pos] at h
    cases h
    constructor <;> simp [SortedKeys, mapFind?, innerW, innerD]
  · simp [hv] at h

theorem WF_AddDocument {s s' : SearchServer} (hw : WF s) {document_id : Int}
    {document : String} {status : DocumentStatus} {ratings : List Int}
    (h : s.AddDocument document_id document status ratings = .ok s') : WF s' := by
  unfold SearchServer.AddDocument at h
  by_cases hg : document_id < 0 ∨ (mapFind? s.documents_ document_id).isSome = true
  · rw [if_pos hg] at h
    exact absurd h (by simp)
  · rw [if_neg hg] at h
    have hid : mapFind? s.documents_ document_id = none := by
      rcases hq : mapFind? s.documents_ document_id with _ | i
      · rfl
      · exact absurd (Or.inr (by simp [hq])) hg
    have hids : document_id ∉ s.document_ids_ := by
      rw [hw.ids_iff_docs, hid]
      simp
    have hdtw : mapFind? s.document_to_word_freqs_ document_id = none := by
      rcases hq : mapFind? s.document_to_word_freqs_ document_id with _ | i
      · rfl
      · exact absurd (hw.dtw_live document_id (by simp [hq])) hids
    cases hsp : s.SplitIntoWordsNoStop document with
    | error e =>
      rw [hsp] at h
      exact absurd h (by simp)
    | ok words =>
      rw [hsp] at h
      have hA := Except.ok.inj h
      subst hA
      have hws := indexWords_sorted document_id (1 / (words.length : ℚ)) words
        s.word_to_document_freqs_ s.document_to_word_freqs_
        hw.wtd_sorted hw.wtd_inner_sorted hw.dtw_sorted hw.dtw_inner_sorted
      refine ⟨hws.1, hws.2.1, hws.2.2.1, hws.2.2.2, SortedKeys_insert? hw.docs_sorted _ _,
        setInsert_sorted hw.ids_sorted _, ?_, ?_, ?_, ?_⟩
      · intro id
        rw [mem_setInsert, mapFind?_insert? hw.docs_sorted]
        by_cases hid' : id = document_id
        · simp [hid']
        · simp only [if_neg hid', hid', false_or]
          exact hw.ids_iff_docs id
      · intro id hsome
        rw [mem_setInsert]
        by_cases hid' : id = document_id
        · exact Or.inl hid'
        · rw [indexWords_outer_dtw document_id _ words _ _ id hid'] at hsome
          exact Or.inr (hw.dtw_live id hsome)
      · intro w' id'
        by_cases hid' : id' = document_id
        · subst hid'
          rw [indexWords_inner_wtd]
          have hd := indexWords_inner_dtw id' (1 / (words.length : ℚ)) words
            s.word_to_document_freqs_ s.document_to_word_freqs_ w'
          rw [hd, hw.dual]
        · rw [indexWords_inner_wtd_ne document_id _ words _ _ w' id' hid']
          have houter := indexWords_outer_dtw document_id (1 / (words.length : ℚ))
            words s.word_to_document_freqs_ s.document_to_word_freqs_ id' hid'
          unfold innerD
          rw [houter]
          exact hw.dual w' id'
      · intro id hmem
        rcases (mem_setInsert _ _ _).mp hmem with hid' | hid'
        · subst hid'
          cases words with
          | nil =>
            left
            unfold innerD
            rw [show (indexWords id (1 / ((List.length []) : ℚ)) []
              (s.word_to_document_freqs_, s.document_to_word_freqs_))
              = (s.word_to_document_freqs_, s.document_to_word_freqs_) from rfl]
            rw [hdtw]
            rfl
          | cons w rest =>
            right
            rw [indexWords_sum id _ (w :: rest) _ _ hw.dtw_inner_sorted]
            unfold innerD
            rw [hdtw]
            have hlen : ((w :: rest).length : ℚ) ≠ 0 := by
              have hpos : (0:ℚ) < ((w :: rest).length : ℚ) := by
                exact_mod_cast Nat.succ_pos rest.length
              exact ne_of_gt hpos
            simp only [Option.getD_none, freqSum, List.map_nil, List.sum_nil]
            rw [zero_add, one_div, inv_mul_cancel₀ hlen]
        · have hne : id ≠ document_id := fun he => hids (he ▸ hid')
          have houter := indexWords_outer_dtw document_id (1 / (words.length : ℚ))
            words s.word_to_document_freqs_ s.document_to_word_freqs_ id hne
          unfold innerD
          rw [houter]
          exact hw.sum_one id hid'

theorem WF_RemoveDocument {s : SearchServer} (hw : WF s) (document_id : Int) :
    WF (s.RemoveDocument document_id) := by
  have hnodup : s.document_ids_.Nodup := hw.ids_sorted.imp ne_of_lt
  have hrm := removeFromWordMap_sorted document_id (s.GetWordFrequencies document_id)
    s.word_to_document_freqs_ hw.wtd_sorted hw.wtd_inner_sorted
  refine ⟨hrm.1, hrm.2, SortedKeys_erase hw.dtw_sorted _, ?_,
    SortedKeys_erase hw.docs_sorted _,
    hw.ids_sorted.sublist (List.erase_sublist _ _), ?_, ?_, ?_, ?_⟩
  · intro p hp
    exact hw.dtw_inner_sorted p ((mapErase_sublist _ _).mem hp)
  · intro id
    dsimp only [SearchServer.RemoveDocument]
    rw [hnodup.mem_erase_iff, mapFind?_erase hw.docs_sorted]
    by_cases hid' : id = document_id
    · simp [hid']
    · simp only [if_neg hid', hid', ne_eq, not_false_iff, true_and]
      exact hw.ids_iff_docs id
  · intro id hsome
    dsimp only [SearchServer.RemoveDocument] at hsome ⊢
    rw [mapFind?_erase hw.dtw_sorted] at hsome
    by_cases hid' : id = document_id
    · rw [if_pos hid'] at hsome
      simp at hsome
    · rw [if_neg hid'] at hsome
      exact hnodup.mem_erase_iff.mpr ⟨hid', hw.dtw_live id hsome⟩
  · intro w' id'
    dsimp only [SearchServer.RemoveDocument]
    by_cases hid' : id' = document_id
    · subst hid'
      have hl := removeFromWordMap_inner id' (s.GetWordFrequencies id')
        s.word_to_document_freqs_ hw.wtd_inner_sorted w'
      rw [hl]
      have hr : innerD (mapErase s.document_to_word_freqs_ id') id' = [] := by
        unfold innerD
        rw [mapFind?_erase hw.dtw_sorted, if_pos rfl]
        rfl
      rw [hr]
      by_cases hmem : w' ∈ (s.GetWordFrequencies id').map Prod.fst
      · rw [if_pos hmem]
        rfl
      · rw [if_neg hmem, hw.dual]
        rw [show s.GetWordFrequencies id' = innerD s.document_to_word_freqs_ id' from rfl]
          at hmem
        have := mapFind?_eq_none_of_forall (innerD s.document_to_word_freqs_ id') w'
          fun p hp he => hmem (he ▸ List.mem_map_of_mem Prod.fst hp)
        rw [this]
        rfl
    · have hl := removeFromWordMap_inner_ne document_id (s.GetWordFrequencies document_id)
        s.word_to_document_freqs_ hw.wtd_inner_sorted w' id' hid'
      rw [hl]
      have hrr : innerD (mapErase s.document_to_word_freqs_ document_id) id' =
          innerD s.document_to_word_freqs_ id' := by
        unfold innerD
        rw [mapFind?_erase hw.dtw_sorted, if_neg hid']
      rw [hrr]
      exact hw.dual w' id'
  · intro id hmem
    dsimp only [SearchServer.RemoveDocument] at hmem ⊢
    obtain ⟨hne, hmem⟩ := hnodup.mem_erase_iff.mp hmem
    have hrr : innerD (mapErase s.document_to_word_freqs_ document_id) id =
        innerD s.document_to_word_freqs_ id := by
      unfold innerD
      rw [mapFind?_erase hw.dtw_sorted, if_neg hne]
    rw [hrr]
    exact hw.sum_one id hmem

theorem WF_of_Reachable {s : SearchServer} (h : Reachable s) : WF s := by
  induction h with
  | init stop_words s hmk => exact WF_mkSearchServer hmk
  | add s s' document_id document status ratings _ hadd ih => exact WF_AddDocument ih hadd
  | remove s document_id _ ih => exact WF_RemoveDocument ih document_id
  | removePar s document_id _ ih =>
    rw [RemoveDocumentPar_eq]
    exact WF_RemoveDocument ih document_id

/-! ## Sequential/parallel ranking equivalence -/

/-- First-of-two option choice (`std::map::insert` keeps the earlier value). -/
def optFirst (o1 o2 : Option ℚ) : Option ℚ :=
  match o1 with
  | some v => some v
  | none => o2

theorem optFirst_assoc (o1 o2 o3 : Option ℚ) :
    optFirst (optFirst o1 o2) o3 = optFirst o1 (optFirst o2 o3) := by
  cases o1 <;> rfl

theorem optFirst_none_right (o : Option ℚ) : optFirst o none = o := by
  cases o <;> rfl

/-- Invariants of the `ConcurrentMap` bucket vector: a fixed positive bucket
count, each bucket sorted, and every key stored in the bucket its hash
selects. -/
structure CMInv (cm : ConcurrentMapQ) : Prop where
  nonempty : 0 < cm.megamap_.length
  bsorted : ∀ i, i < cm.megamap_.length → SortedKeys (cm.megamap_.getD i [])
  placed : ∀ i, i < cm.megamap_.length → ∀ p ∈ cm.megamap_.getD i [],
    bucketOf p.1 cm.megamap_.length = i

/-- The simulation relation between the sequential `std::map<int, double>`
accumulator and the parallel `ConcurrentMap` accumulator. -/
def SimRel (m : List (Int × ℚ)) (cm : ConcurrentMapQ) : Prop :=
  SortedKeys m ∧ CMInv cm ∧ ∀ k, mapFind? m k = cmFind? cm k

theorem getD_set_self {α : Type} (l : List α) (i : Nat) (x d : α) (h : i < l.length) :
    (l.set i x).getD i d = x := by
  simp [List.getD_eq_getElem?_getD, List.getElem?_set_self, h]

theorem getD_set_ne {α : Type} (l : List α) (i j : Nat) (x d : α) (h : j ≠ i) :
    (l.set i x).getD j d = l.getD j d := by
  simp [List.getD_eq_getElem?_getD, List.getElem?_set_ne (fun he => h he.symm)]

theorem getD_replicate {α : Type} (n i : Nat) (d : α) :
    (List.replicate n d).getD i d = d := by
  by_cases h : i < n
  · simp [List.getD_eq_getElem?_getD, List.getElem?_replicate, h]
  · have hge : (List.replicate n d).length ≤ i := by
      rw [List.length_replicate]
      exact not_lt.mp h
    simp [List.getD_eq_getElem?_getD, List.getElem?_eq_none hge]

theorem bucketOf_lt (key : Int) {n : Nat} (h : 0 < n) : bucketOf key n < n :=
  Nat.mod_lt _ h

theorem SimRel_init : SimRel [] ⟨List.replicate 100 []⟩ := by
  refine ⟨List.Pairwise.nil, ⟨by simp, ?_, ?_⟩, ?_⟩
  · intro i _
    rw [getD_replicate]
    exact List.Pairwise.nil
  · intro i _ p hp
    rw [getD_replicate] at hp
    simp at hp
  · intro k
    unfold cmFind?
    rw [getD_replicate]

theorem SimRel_add {m : List (Int × ℚ)} {cm : ConcurrentMapQ} (h : SimRel m cm)
    (k : Int) (v : ℚ) : SimRel (mapAddAt m k v) (cmAdd cm k v) := by
  obtain ⟨hms, hinv, hfind⟩ := h
  have hlen : (cmAdd cm k v).megamap_.length = cm.megamap_.length := by
    unfold cmAdd
    simp
  have hi0 : bucketOf k cm.megamap_.length < cm.megamap_.length :=
    bucketOf_lt k hinv.nonempty
  refine ⟨SortedKeys_set hms _ _, ⟨by rw [hlen]; exact hinv.nonempty, ?_, ?_⟩, ?_⟩
  · intro i hil
    rw [hlen] at hil
    unfold cmAdd
    by_cases hib : i = bucketOf k cm.megamap_.length
    · subst hib
      rw [getD_set_self _ _ _ _ hi0]
      exact SortedKeys_set (hinv.bsorted _ hi0) _ _
    · rw [getD_set_ne _ _ _ _ _ hib]
      exact hinv.bsorted i hil
  · intro i hil p hp
    rw [hlen] at hil ⊢
    unfold cmAdd at hp
    by_cases hib : i = bucketOf k cm.megamap_.length
    · subst hib
      rw [getD_set_self _ _ _ _ hi0] at hp
      rcases mem_mapSet hp with hp | hp
      · rw [hp]
      · exact hinv.placed _ hi0 p hp
    · rw [getD_set_ne _ _ _ _ _ hib] at hp
      exact hinv.placed i hil p hp
  · intro k'
    rw [show mapAddAt m k v = mapSet m k (((mapFind? m k).getD 0) + v) from rfl,
      mapFind?_set]
    unfold cmFind? cmAdd
    simp only [List.length_set]
    by_cases hkb : bucketOf k' cm.megamap_.length = bucketOf k cm.megamap_.length
    · rw [hkb, getD_set_self _ _ _ _ hi0]
      rw [show mapAddAt (cm.megamap_.getD (bucketOf k cm.megamap_.length) []) k v
        = mapSet (cm.megamap_.getD (bucketOf k cm.megamap_.length) []) k
          (((mapFind? (cm.megamap_.getD (bucketOf k cm.megamap_.length) []) k).getD 0) + v)
        from rfl, mapFind?_set]
      by_cases hk : k' = k
      · rw [if_pos hk, if_pos hk, hfind k]
        rfl
      · rw [if_neg hk, if_neg hk, hfind k']
        unfold cmFind?
        rw [hkb]
    · have hk : k' ≠ k := fun he => hkb (by rw [he])
      rw [if_neg hk, getD_set_ne _ _ _ _ _ hkb, hfind k']
      rfl

theorem SimRel_erase {m : List (Int × ℚ)} {cm : ConcurrentMapQ} (h : SimRel m cm)
    (k : Int) : SimRel (mapErase m k) (cmErase cm k) := by
  obtain ⟨hms, hinv, hfind⟩ := h
  have hlen : (cmErase cm k).megamap_.length = cm.megamap_.length := by
    unfold cmErase
    simp
  have hgetD : ∀ i, (cmErase cm k).megamap_.getD i [] =
      (fun b => if (mapFind? b k).isSome then mapErase b k else b)
        (cm.megamap_.getD i []) := by
    intro i
    unfold cmErase
    by_cases hi : i < cm.megamap_.length
    · simp [List.getD_eq_getElem?_getD, List.getElem?_map,
        List.getElem?_eq_getElem hi]
    · have h1 : cm.megamap_.getD i [] = [] := by
        simp [List.getD_eq_getElem?_getD, List.getElem?_eq_none (by simpa using not_lt.mp hi)]
      have h2 : (cm.megamap_.map (fun b =>
          if (mapFind? b k).isSome then mapErase b k else b)).getD i [] = [] := by
        simp [List.getD_eq_getElem?_getD,
          List.getElem?_eq_none (by simpa using not_lt.mp hi)]
      rw [h2, h1]
      simp [mapFind?]
  refine ⟨SortedKeys_erase hms _, ⟨by rw [hlen]; exact hinv.nonempty, ?_, ?_⟩, ?_⟩
  · intro i hil
    rw [hlen] at hil
    rw [hgetD]
    by_cases hb : (mapFind? (cm.megamap_.getD i []) k).isSome
    · simp only [hb, if_pos]
      exact SortedKeys_erase (hinv.bsorted i hil) _
    · simp only [hb, Bool.false_eq_true, if_false]
      exact hinv.bsorted i hil
  · intro i hil p hp
    rw [hlen] at hil ⊢
    rw [hgetD] at hp
    by_cases hb : (mapFind? (cm.megamap_.getD i []) k).isSome
    · simp only [hb, if_pos] at hp
      exact hinv.placed i hil p ((mapErase_sublist _ _).mem hp)
    · simp only [hb, Bool.false_eq_true, if_false] at hp
      exact hinv.placed i hil p hp
  · intro k'
    rw [mapFind?_erase hms k k']
    unfold cmFind?
    rw [hlen, hgetD]
    have hbsorted := hinv.bsorted _ (bucketOf_lt k' hinv.nonempty)
    by_cases hb : (mapFind? (cm.megamap_.getD (bucketOf k' cm.megamap_.length) []) k).isSome
    · simp only [hb, if_pos]
      rw [mapFind?_erase hbsorted k k']
      by_cases hk : k' = k
      · rw [if_pos hk, if_pos hk]
      · rw [if_neg hk, if_neg hk, hfind k']
        rfl
    · simp only [hb, Bool.false_eq_true, if_false]
      by_cases hk : k' = k
      · subst hk
        rw [if_pos rfl]
        rcases ho : mapFind? (cm.megamap_.getD (bucketOf k' cm.megamap_.length) []) k' with
          _ | v
        · rfl
        · rw [ho] at hb
          simp at hb
      · rw [if_neg hk, hfind k']
        rfl

/-- One bucket's range-insert into the ordered total. -/
def insertAll (t : List (Int × ℚ)) (b : List (Int × ℚ)) : List (Int × ℚ) :=
  b.foldl (fun t p => mapInsert? t p.1 p.2) t

theorem cmBuild_eq_foldl (cm : ConcurrentMapQ) :
    cmBuildOrdinaryMap cm = cm.megamap_.foldl insertAll [] := rfl

theorem SortedKeys_insertAll {t : List (Int × ℚ)} (hs : SortedKeys t)
    (b : List (Int × ℚ)) : SortedKeys (insertAll t b) := by
  induction b generalizing t with
  | nil => exact hs
  | cons p rest ih => exact ih (SortedKeys_insert? hs _ _)

theorem find?_insertAll {t : List (Int × ℚ)} (hs : SortedKeys t)
    (b : List (Int × ℚ)) (k : Int) :
    mapFind? (insertAll t b) k = optFirst (mapFind? t k) (mapFind? b k) := by
  induction b generalizing t with
  | nil => rw [insertAll]; simp [mapFind?, optFirst_none_right]
  | cons p rest ih =>
    obtain ⟨k0, v0⟩ := p
    rw [show insertAll t ((k0, v0) :: rest) = insertAll (mapInsert? t k0 v0) rest from rfl]
    rw [ih (SortedKeys_insert? hs _ _), mapFind?_insert? hs]
    by_cases hk : k = k0
    · subst hk
      rw [if_pos rfl]
      rw [show mapFind? ((k, v0) :: rest) k = some v0 by simp [mapFind?]]
      rcases mapFind? t k with _ | v <;> rfl
    · rw [if_neg hk]
      rw [show mapFind? ((k0, v0) :: rest) k = mapFind? rest k by simp [mapFind?, hk]]

/-- First hit across the bucket list in order. -/
def joinFind (bs : List (List (Int × ℚ))) (k : Int) : Option ℚ :=
  match bs with
  | [] => none
  | b :: rest => optFirst (mapFind? b k) (joinFind rest k)

theorem find?_foldl_insertAll (k : Int) :
    ∀ (bs : List (List (Int × ℚ))) (t : List (Int × ℚ)), SortedKeys t →
      mapFind? (bs.foldl insertAll t) k = optFirst (mapFind? t k) (joinFind bs k) := by
  intro bs
  induction bs with
  | nil => intro t _; simp [joinFind, optFirst_none_right]
  | cons b rest ih =>
    intro t hs
    rw [List.foldl_cons, ih _ (SortedKeys_insertAll hs b), find?_insertAll hs,
      joinFind, optFirst_assoc]

theorem SortedKeys_foldl_insertAll :
    ∀ (bs : List (List (Int × ℚ))) (t : List (Int × ℚ)), SortedKeys t →
      SortedKeys (bs.foldl insertAll t) := by
  intro bs
  induction bs with
  | nil => intro t hs; exact hs
  | cons b rest ih => intro t hs; exact ih _ (SortedKeys_insertAll hs b)

theorem joinFind_eq_none (k : Int) :
    ∀ (bs : List (List (Int × ℚ))),
      (∀ i, i < bs.length → mapFind? (bs.getD i []) k = none) → joinFind bs k = none := by
  intro bs
  induction bs with
  | nil => intro _; rfl
  | cons b rest ih =>
    intro h
    have h0 := h 0 (by simp)
    rw [List.getD_cons_zero] at h0
    have hr : ∀ i, i < rest.length → mapFind? (rest.getD i []) k = none := by
      intro i hi
      have := h (i + 1) (by simpa using hi)
      rwa [List.getD_cons_succ] at this
    rw [joinFind, h0, ih hr]
    rfl

theorem joinFind_getD (k : Int) :
    ∀ (bs : List (List (Int × ℚ))) (i0 : Nat), i0 < bs.length →
      (∀ i, i < bs.length → i ≠ i0 → mapFind? (bs.getD i []) k = none) →
      joinFind bs k = mapFind? (bs.getD i0 []) k := by
  intro bs
  induction bs with
  | nil => intro i0 h; simp at h
  | cons b rest ih =>
    intro i0 hi0 h
    cases i0 with
    | zero =>
      have hr : ∀ i, i < rest.length → mapFind? (rest.getD i []) k = none := by
        intro i hi
        have := h (i + 1) (by simpa using hi) (by simp)
        rwa [List.getD_cons_succ] at this
      rw [joinFind, joinFind_eq_none k rest hr, optFirst_none_right, List.getD_cons_zero]
    | succ j =>
      have h0 := h 0 (by simp) (by simp)
      rw [List.getD_cons_zero] at h0
      rw [joinFind, h0, List.getD_cons_succ]
      rw [show optFirst none (joinFind rest k) = joinFind rest k from rfl]
      exact ih j (by simpa using hi0) fun i hi hne =>  by
        have := h (i + 1) (by simpa using hi) (by simpa using hne)
        rwa [List.getD_cons_succ] at this

theorem cmBuild_correct {cm : ConcurrentMapQ} (hinv : CMInv cm) :
    SortedKeys (cmBuildOrdinaryMap cm) ∧
      ∀ k, mapFind? (cmBuildOrdinaryMap cm) k = cmFind? cm k := by
  rw [cmBuild_eq_foldl]
  refine ⟨SortedKeys_foldl_insertAll _ _ List.Pairwise.nil, ?_⟩
  intro k
  rw [find?_foldl_insertAll k _ _ List.Pairwise.nil]
  rw [show optFirst (mapFind? [] k) (joinFind cm.megamap_ k) = joinFind cm.megamap_ k
    from rfl]
  unfold cmFind?
  exact joinFind_getD k cm.megamap_ (bucketOf k cm.megamap_.length)
    (bucketOf_lt k hinv.nonempty) fun i hi hne => by
      refine mapFind?_eq_none_of_forall _ _ fun p hp he => ?_
      exact hne (he ▸ hinv.placed i hi p hp).symm

theorem SimRel_foldl_inner (s : SearchServer) (_idf : Nat → Nat → ℚ)
    (pred : Int → DocumentStatus → Int → Bool) (iwf : ℚ) :
    ∀ (inner : List (Int × ℚ)) (m : List (Int × ℚ)) (cm : ConcurrentMapQ),
      SimRel m cm →
      SimRel
        (inner.foldl (fun m p =>
          let dd := (mapFind? s.documents_ p.1).getD default
          if pred p.1 dd.status dd.rating then mapAddAt m p.1 (p.2 * iwf) else m) m)
        (inner.foldl (fun cm p =>
          let dd := (mapFind? s.documents_ p.1).getD default
          if pred p.1 dd.status dd.rating then cmAdd cm p.1 (p.2 * iwf) else cm) cm) := by
  intro inner
  induction inner with
  | nil => intro m cm h; exact h
  | cons p rest ih =>
    intro m cm h
    rw [List.foldl_cons, List.foldl_cons]
    by_cases hp : pred p.1 ((mapFind? s.documents_ p.1).getD default).status
        ((mapFind? s.documents_ p.1).getD default).rating
    · simp only [hp, if_pos]
      exact ih _ _ (SimRel_add h p.1 (p.2 * iwf))
    · simp only [hp, Bool.false_eq_true, if_false]
      exact ih _ _ h

theorem SimRel_accumulateWord (s : SearchServer) (idf : Nat → Nat → ℚ)
    (pred : Int → DocumentStatus → Int → Bool) {m : List (Int × ℚ)}
    {cm : ConcurrentMapQ} (h : SimRel m cm) (w : String) :
    SimRel (accumulateWord s idf pred m w) (accumulateWordCM s idf pred cm w) := by
  unfold accumulateWord accumulateWordCM
  cases hf : mapFind? s.word_to_document_freqs_ w with
  | none => exact h
  | some inner => exact SimRel_foldl_inner s idf pred _ inner m cm h

theorem SimRel_foldl_erase :
    ∀ (inner : List (Int × ℚ)) (m : List (Int × ℚ)) (cm : ConcurrentMapQ),
      SimRel m cm →
      SimRel (inner.foldl (fun m p => mapErase m p.1) m)
        (inner.foldl (fun cm p => cmErase cm p.1) cm) := by
  intro inner
  induction inner with
  | nil => intro m cm h; exact h
  | cons p rest ih =>
    intro m cm h
    rw [List.foldl_cons, List.foldl_cons]
    exact ih _ _ (SimRel_erase h p.1)

theorem SimRel_eraseWordDocs (s : SearchServer) {m : List (Int × ℚ)}
    {cm : ConcurrentMapQ} (h : SimRel m cm) (w : String) :
    SimRel (eraseWordDocs s m w) (eraseWordDocsCM s cm w) := by
  unfold eraseWordDocs eraseWordDocsCM
  cases hf : mapFind? s.word_to_document_freqs_ w with
  | none => exact h
  | some inner => exact SimRel_foldl_erase inner m cm h

theorem SimRel_foldl_plus (s : SearchServer) (idf : Nat → Nat → ℚ)
    (pred : Int → DocumentStatus → Int → Bool) :
    ∀ (ws : List String) (m : List (Int × ℚ)) (cm : ConcurrentMapQ), SimRel m cm →
      SimRel (ws.foldl (accumulateWord s idf pred) m)
        (ws.foldl (accumulateWordCM s idf pred) cm) := by
  intro ws
  induction ws with
  | nil => intro m cm h; exact h
  | cons w rest ih =>
    intro m cm h
    exact ih _ _ (SimRel_accumulateWord s idf pred h w)

theorem SimRel_foldl_minus (s : SearchServer) :
    ∀ (ws : List String) (m : List (Int × ℚ)) (cm : ConcurrentMapQ), SimRel m cm →
      SimRel (ws.foldl (eraseWordDocs s) m) (ws.foldl (eraseWordDocsCM s) cm) := by
  intro ws
  induction ws with
  | nil => intro m cm h; exact h
  | cons w rest ih =>
    intro m cm h
    exact ih _ _ (SimRel_eraseWordDocs s h w)

/-- The parallel `FindAllDocuments` produces exactly the sequential result:
the bucketed accumulator merged through `BuildOrdinaryMap` is the sequential
ordered relevance map. -/
theorem FindAllDocuments_par_eq_seq (s : SearchServer) (idf : Nat → Nat → ℚ)
    (query : Query) (pred : Int → DocumentStatus → Int → Bool) :
    s.FindAllDocumentsPar idf query pred = s.FindAllDocumentsSeq idf query pred := by
  unfold SearchServer.FindAllDocumentsPar SearchServer.FindAllDocumentsSeq
  dsimp only
  have hsim : SimRel
      (query.minus_words.foldl (eraseWordDocs s)
        (query.plus_words.foldl (accumulateWord s idf pred) []))
      (query.minus_words.foldl (eraseWordDocsCM s)
        (query.plus_words.foldl (accumulateWordCM s idf pred) ⟨List.replicate 100 []⟩)) :=
    SimRel_foldl_minus s _ _ _ (SimRel_foldl_plus s idf pred _ _ _ SimRel_init)
  obtain ⟨hms, hinv, hfind⟩ := hsim
  have hbuild := cmBuild_correct hinv
  have heq : cmBuildOrdinaryMap
      (query.minus_words.foldl (eraseWordDocsCM s)
        (query.plus_words.foldl (accumulateWordCM s idf pred) ⟨List.replicate 100 []⟩)) =
      query.minus_words.foldl (eraseWordDocs s)
        (query.plus_words.foldl (accumulateWord s idf pred) []) :=
    mapExt hbuild.1 hms fun k => (hbuild.2 k).trans (hfind k).symm
  rw [heq]

/-- Both `FindTopDocuments` policies yield identical results. -/
theorem FindTopDocuments_par_eq_seq (s : SearchServer) (idf : Nat → Nat → ℚ)
    (raw_query : String) (pred : Int → DocumentStatus → Int → Bool) :
    s.FindTopDocumentsPar idf raw_query pred = s.FindTopDocumentsSeq idf raw_query pred := by
  unfold SearchServer.FindTopDocumentsPar SearchServer.FindTopDocumentsSeq
  cases hq : s.ParseQuery raw_query true with
  | error e => rfl
  | ok query =>
    dsimp only
    rw [FindAllDocuments_par_eq_seq]

/-! ## Order properties of the ranking sort -/

theorem chain'_insertCmp {α : Type} (cmp : α → α → Bool) (x : α) :
    ∀ {l : List α}, List.Chain' (fun a b => cmp a b = true ∨ ¬cmp b a = true) l →
      List.Chain' (fun a b => cmp a b = true ∨ ¬cmp b a = true) (insertCmp cmp x l) := by
  intro l
  induction l with
  | nil => intro _; simp [insertCmp]
  | cons y ys ih =>
    intro h
    rw [insertCmp]
    by_cases hc : cmp x y
    · rw [if_pos hc]
      exact List.Chain'.cons (Or.inl hc) h
    · rw [if_neg hc]
      have htail := ih h.tail
      refine List.chain'_cons'.mpr ⟨?_, htail⟩
      intro b hb
      cases ys with
      | nil =>
        rw [show insertCmp cmp x [] = [x] from rfl] at hb
        simp at hb
        rw [← hb]
        exact Or.inr hc
      | cons z zs =>
        rw [insertCmp] at hb
        by_cases hcz : cmp x z
        · rw [if_pos hcz] at hb
          simp at hb
          rw [← hb]
          exact Or.inr hc
        · rw [if_neg hcz] at hb
          simp at hb
          rw [← hb]
          exact (List.chain'_cons.mp h).1
  
theorem chain'_sortCmp {α : Type} (cmp : α → α → Bool) (l : List α) :
    List.Chain' (fun a b => cmp a b = true ∨ ¬cmp b a = true) (sortCmp cmp l) := by
  induction l with
  | nil => simp [sortCmp]
  | cons x xs ih => exact chain'_insertCmp cmp x ih

theorem mem_of_mem_insertCmp {α : Type} {cmp : α → α → Bool} {x a : α} :
    ∀ {l : List α}, a ∈ insertCmp cmp x l → a = x ∨ a ∈ l := by
  intro l
  induction l with
  | nil => intro h; simpa [insertCmp] using h
  | cons y ys ih =>
    intro h
    rw [insertCmp] at h
    by_cases hc : cmp x y
    · rw [if_pos hc] at h
      rcases List.mem_cons.mp h with h | h
      · exact Or.inl h
      · exact Or.inr h
    · rw [if_neg hc] at h
      rcases List.mem_cons.mp h with h | h
      · exact Or.inr (by simp [h])
      · rcases ih h with h | h
        · exact Or.inl h
        · exact Or.inr (by simp [h])

theorem mem_of_mem_sortCmp {α : Type} {cmp : α → α → Bool} {a : α} :
    ∀ {l : List α}, a ∈ sortCmp cmp l → a ∈ l := by
  intro l
  induction l with
  | nil => intro h; rw [sortCmp] at h; exact h
  | cons x xs ih =>
    intro h
    rw [sortCmp] at h
    rcases mem_of_mem_insertCmp h with h | h
    · simp [h]
    · simp [ih h]

theorem EPSILON_pos : 0 < EPSILON := by
  unfold EPSILON
  norm_num

/-- A pair admitted adjacently by the ranking comparator satisfies the
ranking contract: strictly greater relevance, or an EPSILON-tie broken by
rating. -/
theorem docCmp_adjacent (x y : Document)
    (h : docCmp x y = true ∨ ¬docCmp y x = true) :
    y.relevance < x.relevance ∨
      (|x.relevance - y.relevance| < EPSILON ∧ y.rating ≤ x.rating) := by
  rcases h with h | h
  · unfold docCmp at h
    rw [decide_eq_true_iff] at h
    rcases h with h | h
    · exact Or.inl h
    · exact Or.inr ⟨h.1, le_of_lt h.2⟩
  · unfold docCmp at h
    rw [decide_eq_true_iff] at h
    push_neg at h
    obtain ⟨h1, h2⟩ := h
    by_cases he : |x.relevance - y.relevance| < EPSILON
    · refine Or.inr ⟨he, ?_⟩
      have := h2 (by rwa [abs_sub_comm])
      exact this
    · left
      rcases lt_or_eq_of_le h1 with hlt | heq
      · exact hlt
      · exfalso
        rw [heq] at he
        simp at he
        exact absurd EPSILON_pos (not_lt.mpr he)

/-! ## Excluded-term erasure in the sequential ranking -/

theorem SortedKeys_foldl_mapErase (_id : Int) :
    ∀ (inner : List (Int × ℚ)) (m : List (Int × ℚ)), SortedKeys m →
      SortedKeys (inner.foldl (fun m p => mapErase m p.1) m) := by
  intro inner
  induction inner with
  | nil => intro m h; exact h
  | cons p rest ih => intro m h; exact ih _ (SortedKeys_erase h _)

theorem SortedKeys_eraseWordDocs (s : SearchServer) {m : List (Int × ℚ)}
    (h : SortedKeys m) (w : String) : SortedKeys (eraseWordDocs s m w) := by
  unfold eraseWordDocs
  cases mapFind? s.word_to_document_freqs_ w with
  | none => exact h
  | some inner => exact SortedKeys_foldl_mapErase 0 inner m h

theorem SortedKeys_foldl_addAt (s : SearchServer)
    (pred : Int → DocumentStatus → Int → Bool) (iwf : ℚ) :
    ∀ (inner : List (Int × ℚ)) (m : List (Int × ℚ)), SortedKeys m →
      SortedKeys (inner.foldl (fun m p =>
        let dd := (mapFind? s.documents_ p.1).getD default
        if pred p.1 dd.status dd.rating then mapAddAt m p.1 (p.2 * iwf) else m) m) := by
  intro inner
  induction inner with
  | nil => intro m h; exact h
  | cons p rest ih =>
    intro m h
    rw [List.foldl_cons]
    by_cases hp : pred p.1 ((mapFind? s.documents_ p.1).getD default).status
        ((mapFind? s.documents_ p.1).getD default).rating
    · simp only [hp, if_pos]
      exact ih _ (SortedKeys_set h _ _)
    · simp only [hp, Bool.false_eq_true, if_false]
      exact ih _ h

theorem SortedKeys_accumulateWord (s : SearchServer) (idf : Nat → Nat → ℚ)
    (pred : Int → DocumentStatus → Int → Bool) {m : List (Int × ℚ)}
    (h : SortedKeys m) (w : String) : SortedKeys (accumulateWord s idf pred m w) := by
  unfold accumulateWord
  cases mapFind? s.word_to_document_freqs_ w with
  | none => exact h
  | some inner => exact SortedKeys_foldl_addAt s pred _ inner m h

theorem foldl_mapErase_preserves_none {id : Int} :
    ∀ (inner : List (Int × ℚ)) (m : List (Int × ℚ)), SortedKeys m →
      mapFind? m id = none →
      mapFind? (inner.foldl (fun m p => mapErase m p.1) m) id = none := by
  intro inner
  induction inner with
  | nil => intro m _ h0; exact h0
  | cons p rest ih =>
    intro m hs h0
    rw [List.foldl_cons]
    refine ih _ (SortedKeys_erase hs _) ?_
    rw [mapFind?_erase hs]
    by_cases hk : id = p.1
    · rw [if_pos hk]
    · rw [if_neg hk]
      exact h0

theorem foldl_mapErase_self {id : Int} {v : ℚ} :
    ∀ (inner : List (Int × ℚ)) (m : List (Int × ℚ)), SortedKeys m →
      (id, v) ∈ inner →
      mapFind? (inner.foldl (fun m p => mapErase m p.1) m) id = none := by
  intro inner
  induction inner with
  | nil => intro m _ h; simp at h
  | cons p rest ih =>
    intro m hs hmem
    rw [List.foldl_cons]
    by_cases hk : p.1 = id
    · refine foldl_mapErase_preserves_none rest _ (SortedKeys_erase hs _) ?_
      rw [mapFind?_erase hs, hk, if_pos rfl]
    · rcases List.mem_cons.mp hmem with hmem | hmem
      · exact absurd (congrArg Prod.fst hmem).symm hk
      · exact ih _ (SortedKeys_erase hs _) hmem

theorem eraseWordDocs_preserves_none (s : SearchServer) {m : List (Int × ℚ)} {id : Int}
    (hs : SortedKeys m) (h0 : mapFind? m id = none) (w : String) :
    mapFind? (eraseWordDocs s m w) id = none := by
  unfold eraseWordDocs
  cases mapFind? s.word_to_document_freqs_ w with
  | none => exact h0
  | some inner => exact foldl_mapErase_preserves_none inner m hs h0

theorem eraseWordDocs_self (s : SearchServer) {m : List (Int × ℚ)} {id : Int}
    (hs : SortedKeys m) (w : String)
    (hin : (mapFind? (innerW s.word_to_document_freqs_ w) id).isSome = true) :
    mapFind? (eraseWordDocs s m w) id = none := by
  unfold eraseWordDocs
  cases hf : mapFind? s.word_to_document_freqs_ w with
  | none =>
    exfalso
    unfold innerW at hin
    rw [hf] at hin
    simp [mapFind?] at hin
  | some inner =>
    unfold innerW at hin
    rw [hf] at hin
    simp only [Option.getD_some] at hin
    rcases ho : mapFind? inner id with _ | v
    · rw [ho] at hin
      simp at hin
    · exact foldl_mapErase_self inner m hs (mem_of_mapFind?_eq_some ho)

theorem foldl_eraseWordDocs_preserves_none (s : SearchServer) {id : Int} :
    ∀ (ws : List String) (m : List (Int × ℚ)), SortedKeys m →
      mapFind? m id = none →
      mapFind? (ws.foldl (eraseWordDocs s) m) id = none := by
  intro ws
  induction ws with
  | nil => intro m _ h0; exact h0
  | cons w0 rest ih =>
    intro m hs h0
    rw [List.foldl_cons]
    exact ih _ (SortedKeys_eraseWordDocs s hs w0)
      (eraseWordDocs_preserves_none s hs h0 w0)

theorem minus_fold_erases (s : SearchServer) {w : String} {id : Int}
    (hin : (mapFind? (innerW s.word_to_document_freqs_ w) id).isSome = true) :
    ∀ (ws : List String) (m : List (Int × ℚ)), SortedKeys m → w ∈ ws →
      mapFind? (ws.foldl (eraseWordDocs s) m) id = none := by
  intro ws
  induction ws with
  | nil => intro m _ h; simp at h
  | cons w0 rest ih =>
    intro m hs hmem
    rw [List.foldl_cons]
    by_cases hw : w0 = w
    · subst hw
      exact foldl_eraseWordDocs_preserves_none s rest _
        (SortedKeys_eraseWordDocs s hs w0) (eraseWordDocs_self s hs w0 hin)
    · rcases List.mem_cons.mp hmem with hmem | hmem
      · exact absurd hmem.symm hw
      · exact ih _ (SortedKeys_eraseWordDocs s hs w0) hmem

/-! ## Auxiliary predicates and concrete reachable states -/

/-- Whether an `Except` computation threw. -/
def exceptIsError {ε α : Type} : Except ε α → Bool
  | .error _ => true
  | .ok _ => false

theorem noStopAux_error_iff (s : SearchServer) :
    ∀ l : List String, exceptIsError (noStopAux s l) = true ↔
      ∃ w ∈ l, IsValidWord w = false := by
  intro l
  induction l with
  | nil => simp [noStopAux, exceptIsError]
  | cons w rest ih =>
    by_cases hv : IsValidWord w = false
    · refine iff_of_true ?_ ⟨w, by simp, hv⟩
      rw [noStopAux, if_pos hv]
      rfl
    · rw [noStopAux, if_neg hv]
      cases hr : noStopAux s rest with
      | error e =>
        refine iff_of_true rfl ?_
        obtain ⟨w0, hw0, hw0v⟩ := ih.mp (by rw [hr]; rfl)
        exact ⟨w0, by simp [hw0], hw0v⟩
      | ok ws =>
        refine iff_of_false (by simp [exceptIsError]) ?_
        rintro ⟨w0, hw0, hw0v⟩
        rcases List.mem_cons.mp hw0 with hw0 | hw0
        · exact hv (hw0 ▸ hw0v)
        · have := ih.mpr ⟨w0, hw0, hw0v⟩
          rw [hr] at this
          simp [exceptIsError] at this

theorem SortedKeys_plus_fold (s : SearchServer) (idf : Nat → Nat → ℚ)
    (pred : Int → DocumentStatus → Int → Bool) :
    ∀ (ws : List String) (m : List (Int × ℚ)), SortedKeys m →
      SortedKeys (ws.foldl (accumulateWord s idf pred) m) := by
  intro ws
  induction ws with
  | nil => intro m h; exact h
  | cons w rest ih =>
    intro m h
    exact ih _ (SortedKeys_accumulateWord s idf pred h w)

/-- The freshly constructed server with an empty stop-word set. -/
def emptyServer : SearchServer := ⟨[], [], [], [], []⟩

theorem Reachable_emptyServer : Reachable emptyServer :=
  Reachable.init [] emptyServer rfl

/-- `emptyServer` after `AddDocument(0, "cat", ACTUAL, {2})`. -/
def sCat : SearchServer :=
  match emptyServer.AddDocument 0 "cat" .ACTUAL [2] with
  | .ok s => s
  | .error _ => emptyServer

theorem Reachable_sCat : Reachable sCat :=
  Reachable.add emptyServer sCat 0 "cat" .ACTUAL [2] Reachable_emptyServer rfl

/-- `emptyServer` after `AddDocument(1, "b c", ACTUAL, {0})`. -/
def sBC : SearchServer :=
  match emptyServer.AddDocument 1 "b c" .ACTUAL [0] with
  | .ok s => s
  | .error _ => emptyServer

theorem Reachable_sBC : Reachable sBC :=
  Reachable.add emptyServer sBC 1 "b c" .ACTUAL [0] Reachable_emptyServer rfl

/-- `emptyServer` after `AddDocument(1, "b", ACTUAL, {0})`. -/
def sB : SearchServer :=
  match emptyServer.AddDocument 1 "b" .ACTUAL [0] with
  | .ok s => s
  | .error _ => emptyServer

/-- `emptyServer` after `AddDocument(0, "", ACTUAL, {1})`: the empty text
tokenizes to no words, yet the document is accepted and becomes live. -/
def sEmptyDoc : SearchServer :=
  match emptyServer.AddDocument 0 "" .ACTUAL [1] with
  | .ok s => s
  | .error _ => emptyServer

/-! ## The claims -/

/-- C1: refuted on the code — `MatchDocument` caches the first call's parsed
query in a function-local `static` and reuses it for every later call.  On
the server holding document 1 = "b", a first call with query "a" poisons the
cache; the following call with raw query "b" returns no matched words, while
a first-ever call with "b" returns ["b"].  The two calls the claim requires
to agree differ. -/
theorem matchDocument_reuses_cached_query :
    (sB.MatchDocument ((sB.MatchDocument none "a" 1).2) "b" 1).1
        = .ok ([], DocumentStatus.ACTUAL)
    ∧ (sB.MatchDocument none "b" 1).1 = .ok (["b"], DocumentStatus.ACTUAL)
    ∧ (sB.MatchDocument ((sB.MatchDocument none "a" 1).2) "b" 1).1
        ≠ (sB.MatchDocument none "b" 1).1 := by
  refine ⟨rfl, rfl, ?_⟩
  intro hc
  rw [show (sB.MatchDocument ((sB.MatchDocument none "a" 1).2) "b" 1).1
      = .ok ([], DocumentStatus.ACTUAL) from rfl] at hc
  rw [show (sB.MatchDocument none "b" 1).1
      = .ok (["b"], DocumentStatus.ACTUAL) from rfl] at hc
  simp at hc

/-- C2: dual-index consistency — in every reachable state, a (term,
document) pair carries a frequency in the term→document map exactly when the
document→term map carries the identical frequency. -/
theorem dual_index_consistency (s : SearchServer) (hreach : Reachable s)
    (w : String) (document_id : Int) (f : ℚ) (_hf : f ≠ 0) :
    (mapFind? (innerW s.word_to_document_freqs_ w) document_id = some f ↔
      mapFind? (innerD s.document_to_word_freqs_ document_id) w = some f) := by
  rw [(WF_of_Reachable hreach).dual]

theorem dual_index_consistency_witness :
    (mapFind? (innerW sCat.word_to_document_freqs_ "cat") 0 = some 1 ↔
      mapFind? (innerD sCat.document_to_word_freqs_ 0) "cat" = some 1) :=
  dual_index_consistency sCat Reachable_sCat "cat" 0 1 (by decide)

/-- C3 counterexample: `AddDocument(0, "", ACTUAL, {1})` succeeds, document
0 is live, and the sum of its term frequencies is 0 — not within 1e-9 of
1.0. -/
theorem freq_sum_empty_document_cex :
    Reachable sEmptyDoc ∧ 0 ∈ sEmptyDoc.document_ids_ ∧
      freqSum (sEmptyDoc.GetWordFrequencies 0) = 0 ∧
      ¬|freqSum (sEmptyDoc.GetWordFrequencies 0) - 1| ≤ 1 / 1000000000 :=
  ⟨Reachable.add emptyServer sEmptyDoc 0 "" .ACTUAL [1] Reachable_emptyServer rfl,
    by decide, by decide, by decide⟩

/-- C3 (amended): for every live document that indexed at least one
non-stop word, the sum of its term frequencies equals 1 within 1e-9 (in the
exact-arithmetic model, exactly 1). -/
theorem freq_sum_one_of_nonempty (s : SearchServer) (hreach : Reachable s)
    (document_id : Int) (hlive : document_id ∈ s.document_ids_)
    (hne : s.GetWordFrequencies document_id ≠ []) :
    |freqSum (s.GetWordFrequencies document_id) - 1| ≤ 1 / 1000000000 := by
  rcases (WF_of_Reachable hreach).sum_one document_id hlive with h0 | h1
  · exact absurd h0 hne
  · rw [show s.GetWordFrequencies document_id
      = innerD s.document_to_word_freqs_ document_id from rfl, h1]
    norm_num

theorem freq_sum_one_of_nonempty_witness :
    |freqSum (sCat.GetWordFrequencies 0) - 1| ≤ 1 / 1000000000 :=
  freq_sum_one_of_nonempty sCat Reachable_sCat 0 (by decide) (by decide)

/-- C4: for every index state, inverse-document-frequency table, raw query
and predicate, the parallel-policy `FindTopDocuments` returns exactly the
sequential-policy result (so the ordered id sequences coincide and the
relevance values differ by 0 ≤ EPSILON). -/
theorem findTopDocuments_policy_equivalence (s : SearchServer)
    (idf : Nat → Nat → ℚ) (raw_query : String)
    (pred : Int → DocumentStatus → Int → Bool) :
    s.FindTopDocumentsPar idf raw_query pred =
      s.FindTopDocumentsSeq idf raw_query pred :=
  FindTopDocuments_par_eq_seq s idf raw_query pred

/-- C9: refuted on the code — the event trace of `ConcurrentMap::Erase`
begins, for every presence profile, with a presence check performed while
the bucket lock is NOT held (the `lock_guard` is constructed only inside
the conditional), so check-then-erase is not one atomic critical section. -/
theorem concurrentMap_erase_unlocked_check :
    ∀ key_present_in : Nat → Bool,
      (cmEraseTrace 100 key_present_in).head? =
        some (CMEvent.checkPresence 0 false)
      ∧ CMEvent.checkPresence 0 false ∈ cmEraseTrace 100 key_present_in := by
  intro p
  have hcons : ∃ t, cmEraseTrace 100 p = CMEvent.checkPresence 0 false :: t :=
    ⟨_, rfl⟩
  obtain ⟨t, ht⟩ := hcons
  constructor
  · rw [ht]
    rfl
  · rw [ht]
    exact List.mem_cons_self _ _

/-- C10: removing a non-live document id is a silent no-op for every
overload: no error (the functions are total, mirroring the throw-free
source) and the state is unchanged. -/
theorem removeDocument_nonlive_noop (s : SearchServer) (hreach : Reachable s)
    (document_id : Int) (hid : document_id ∉ s.document_ids_) :
    s.RemoveDocument document_id = s ∧ s.RemoveDocumentSeq document_id = s ∧
      s.RemoveDocumentPar document_id = s := by
  have hw := WF_of_Reachable hreach
  have hdocs : mapFind? s.documents_ document_id = none := by
    rcases hq : mapFind? s.documents_ document_id with _ | d
    · rfl
    · exact absurd ((hw.ids_iff_docs document_id).mpr (by simp [hq])) hid
  have hdtw : mapFind? s.document_to_word_freqs_ document_id = none := by
    rcases hq : mapFind? s.document_to_word_freqs_ document_id with _ | i
    · rfl
    · exact absurd (hw.dtw_live document_id (by simp [hq])) hid
  have hwf : s.GetWordFrequencies document_id = [] := by
    unfold SearchServer.GetWordFrequencies
    rw [hdtw]
    rfl
  have h1 : s.RemoveDocument document_id = s := by
    unfold SearchServer.RemoveDocument
    rw [hwf]
    rw [show removeFromWordMap document_id [] s.word_to_document_freqs_
      = s.word_to_document_freqs_ from rfl]
    rw [mapErase_of_find?_none hdtw, mapErase_of_find?_none hdocs,
      List.erase_of_not_mem hid]
  exact ⟨h1, h1, by rw [RemoveDocumentPar_eq]; exact h1⟩

theorem removeDocument_nonlive_noop_witness :
    sCat.RemoveDocument 7 = sCat ∧ sCat.RemoveDocumentSeq 7 = sCat ∧
      sCat.RemoveDocumentPar 7 = sCat :=
  removeDocument_nonlive_noop sCat Reachable_sCat 7 (by decide)

/-- C5: every `FindTopDocuments` result (either policy) has at most
`MAX_RESULT_DOCUMENT_COUNT` hits, and each adjacent pair is ordered by
strictly decreasing relevance or is an EPSILON-tie with non-increasing
rating. -/
theorem findTopDocuments_bounded_and_ranked (s : SearchServer)
    (idf : Nat → Nat → ℚ) (raw_query : String)
    (pred : Int → DocumentStatus → Int → Bool) (docs : List Document)
    (h : s.FindTopDocumentsSeq idf raw_query pred = .ok docs ∨
      s.FindTopDocumentsPar idf raw_query pred = .ok docs) :
    docs.length ≤ MAX_RESULT_DOCUMENT_COUNT ∧
      List.Chain' (fun x y => y.relevance < x.relevance ∨
        (|x.relevance - y.relevance| < EPSILON ∧ y.rating ≤ x.rating)) docs := by
  have hseq : s.FindTopDocumentsSeq idf raw_query pred = .ok docs := by
    rcases h with h | h
    · exact h
    · rw [FindTopDocuments_par_eq_seq] at h
      exact h
  unfold SearchServer.FindTopDocumentsSeq at hseq
  cases hq : s.ParseQuery raw_query true with
  | error e =>
    rw [hq] at hseq
    exact absurd hseq (by simp)
  | ok q =>
    rw [hq] at hseq
    dsimp only at hseq
    have hd := Except.ok.inj hseq
    rw [← hd]
    by_cases hlen : MAX_RESULT_DOCUMENT_COUNT <
        (sortCmp docCmp (s.FindAllDocumentsSeq idf q pred)).length
    · rw [if_pos hlen]
      constructor
      · rw [List.length_take]
        exact min_le_left _ _
      · exact List.Chain'.prefix
          ((chain'_sortCmp docCmp _).imp (fun a b hab => docCmp_adjacent a b hab))
          ( List.take_prefix _ _)
    · rw [if_neg hlen]
      exact ⟨not_lt.mp hlen, (chain'_sortCmp docCmp _).imp
        (fun a b hab => docCmp_adjacent a b hab)⟩

theorem findTopDocuments_bounded_and_ranked_witness :
    ([⟨0, 1, 2⟩] : List Document).length ≤ MAX_RESULT_DOCUMENT_COUNT ∧
      List.Chain' (fun x y => y.relevance < x.relevance ∨
        (|x.relevance - y.relevance| < EPSILON ∧ y.rating ≤ x.rating))
        ([⟨0, 1, 2⟩] : List Document) :=
  findTopDocuments_bounded_and_ranked sCat (fun n df => (n : ℚ) / df) "cat"
    (fun _ _ _ => true) [⟨0, 1, 2⟩] (Or.inl rfl)

/-- C6: excluded-term dominance — in a reachable state, a document whose
frequency map contains a minus word of the (successfully parsed) query never
appears in either policy's `FindTopDocuments` output, and a first-ever
`MatchDocument` call returns an empty matched list for it. -/
theorem excluded_term_dominance (s : SearchServer) (idf : Nat → Nat → ℚ)
    (raw_query : String) (pred : Int → DocumentStatus → Int → Bool)
    (q : Query) (w : String) (document_id : Int)
    (hreach : Reachable s)
    (hq : s.ParseQuery raw_query true = .ok q)
    (hwm : w ∈ q.minus_words)
    (hdoc : (mapFind? (s.GetWordFrequencies document_id) w).isSome = true) :
    (∀ docs, s.FindTopDocumentsSeq idf raw_query pred = .ok docs →
      ∀ d ∈ docs, d.id ≠ document_id)
    ∧ (∀ docs, s.FindTopDocumentsPar idf raw_query pred = .ok docs →
      ∀ d ∈ docs, d.id ≠ document_id)
    ∧ (s.MatchDocument none raw_query document_id).1 =
        .ok ([], ((mapFind? s.documents_ document_id).getD default).status) := by
  have hw := WF_of_Reachable hreach
  have hinW : (mapFind? (innerW s.word_to_document_freqs_ w) document_id).isSome = true := by
    rw [hw.dual]
    exact hdoc
  have hseq : ∀ docs, s.FindTopDocumentsSeq idf raw_query pred = .ok docs →
      ∀ d ∈ docs, d.id ≠ document_id := by
    intro docs hdocs d hd hde
    unfold SearchServer.FindTopDocumentsSeq at hdocs
    rw [hq] at hdocs
    dsimp only at hdocs
    have hd2 := Except.ok.inj hdocs
    rw [← hd2] at hd
    have hmem1 : d ∈ sortCmp docCmp (s.FindAllDocumentsSeq idf q pred) := by
      by_cases hlen : MAX_RESULT_DOCUMENT_COUNT <
          (sortCmp docCmp (s.FindAllDocumentsSeq idf q pred)).length
      · rw [if_pos hlen] at hd
        exact List.mem_of_mem_take hd
      · rw [if_neg hlen] at hd
        exact hd
    have hmem2 : d ∈ s.FindAllDocumentsSeq idf q pred := mem_of_mem_sortCmp hmem1
    unfold SearchServer.FindAllDocumentsSeq at hmem2
    dsimp only at hmem2
    obtain ⟨p, hp, hpd⟩ := List.mem_map.mp hmem2
    have hnone : mapFind?
        (q.minus_words.foldl (eraseWordDocs s)
          (q.plus_words.foldl (accumulateWord s idf pred) [])) document_id = none :=
      minus_fold_erases s hinW q.minus_words _
        (SortedKeys_plus_fold s idf pred q.plus_words [] List.Pairwise.nil) hwm
    have hpid : p.1 = document_id := by
      rw [← hde, ← hpd]
    have hp' : (document_id, p.2) ∈
        q.minus_words.foldl (eraseWordDocs s)
          (q.plus_words.foldl (accumulateWord s idf pred) []) := by
      rw [← hpid]
      exact hp
    have hsome := mapFind?_isSome_of_mem hp'
    rw [hnone] at hsome
    simp at hsome
  refine ⟨hseq, ?_, ?_⟩
  · intro docs hdocs
    rw [FindTopDocuments_par_eq_seq] at hdocs
    exact hseq docs hdocs
  · have hlive : document_id ∈ s.document_ids_ := by
      apply hw.dtw_live
      rcases ho : mapFind? s.document_to_word_freqs_ document_id with _ | inner
      · exfalso
        unfold SearchServer.GetWordFrequencies at hdoc
        rw [ho] at hdoc
        simp [mapFind?] at hdoc
      · rfl
    have hwhd : wordHasDoc s w document_id = true := by
      unfold wordHasDoc
      rcases hf : mapFind? s.word_to_document_freqs_ w with _ | inner
      · exfalso
        unfold innerW at hinW
        rw [hf] at hinW
        simp [mapFind?] at hinW
      · unfold innerW at hinW
        rw [hf] at hinW
        simpa using hinW
    have hcontains : s.document_ids_.contains document_id = true := by
      exact List.elem_eq_true_of_mem hlive
    unfold SearchServer.MatchDocument
    rw [hcontains]
    dsimp only
    rw [hq]
    dsimp only
    unfold SearchServer.MatchDocumentCore
    rw [if_pos (List.any_eq_true.mpr ⟨w, hwm, hwhd⟩)]
    rfl

theorem excluded_term_dominance_witness :
    (∀ docs, sBC.FindTopDocumentsSeq (fun n df => (n : ℚ) / df) "c -b"
        (fun _ _ _ => true) = .ok docs → ∀ d ∈ docs, d.id ≠ 1)
    ∧ (∀ docs, sBC.FindTopDocumentsPar (fun n df => (n : ℚ) / df) "c -b"
        (fun _ _ _ => true) = .ok docs → ∀ d ∈ docs, d.id ≠ 1)
    ∧ (sBC.MatchDocument none "c -b" 1).1 =
        .ok ([], ((mapFind? sBC.documents_ 1).getD default).status) :=
  excluded_term_dominance sBC (fun n df => (n : ℚ) / df) "c -b"
    (fun _ _ _ => true) ⟨["c"], ["b"]⟩ "b" 1 Reachable_sBC rfl (by decide) rfl

/-- C7: `AddDocument` fails exactly for a negative id, an already present
id, or a control-character token in the document text; on failure (caught by
the source's free helper) the server is left exactly as it was — every throw
site precedes the first mutation. -/
theorem addDocument_failure_characterization (s : SearchServer)
    (document_id : Int) (document : String) (status : DocumentStatus)
    (ratings : List Int) (_hrs : ratings ≠ []) :
    (exceptIsError (s.AddDocument document_id document status ratings) = true ↔
      (document_id < 0 ∨ (mapFind? s.documents_ document_id).isSome = true ∨
        ∃ w ∈ SplitIntoWords document, IsValidWord w = false))
    ∧ (exceptIsError (s.AddDocument document_id document status ratings) = true →
        AddDocumentCaught s document_id document status ratings = s) := by
  constructor
  · unfold SearchServer.AddDocument
    by_cases hg : document_id < 0 ∨ (mapFind? s.documents_ document_id).isSome = true
    · rw [if_pos hg]
      refine iff_of_true rfl ?_
      rcases hg with hg | hg
      · exact Or.inl hg
      · exact Or.inr (Or.inl hg)
    · rw [if_neg hg]
      cases hsp : s.SplitIntoWordsNoStop document with
      | error e =>
        refine iff_of_true rfl (Or.inr (Or.inr ?_))
        have := (noStopAux_error_iff s (SplitIntoWords document)).mp
          (by rw [show noStopAux s (SplitIntoWords document)
            = s.SplitIntoWordsNoStop document from rfl, hsp]; rfl)
        exact this
      | ok words =>
        refine iff_of_false (by simp [exceptIsError]) ?_
        rintro (hbad | hbad | hbad)
        · exact hg (Or.inl hbad)
        · exact hg (Or.inr hbad)
        · have := (noStopAux_error_iff s (SplitIntoWords document)).mpr hbad
          rw [show noStopAux s (SplitIntoWords document)
            = s.SplitIntoWordsNoStop document from rfl, hsp] at this
          simp [exceptIsError] at this
  · intro he
    unfold AddDocumentCaught
    rcases hv : s.AddDocument document_id document status ratings with e | s'
    · rfl
    · rw [hv] at he
      simp [exceptIsError] at he

theorem addDocument_failure_characterization_witness :
    ((exceptIsError (emptyServer.AddDocument (-1) "x" .ACTUAL [1]) = true ↔
      ((-1 : Int) < 0 ∨ (mapFind? emptyServer.documents_ (-1)).isSome = true ∨
        ∃ w ∈ SplitIntoWords "x", IsValidWord w = false))
    ∧ (exceptIsError (emptyServer.AddDocument (-1) "x" .ACTUAL [1]) = true →
        AddDocumentCaught emptyServer (-1) "x" .ACTUAL [1] = emptyServer)) :=
  addDocument_failure_characterization emptyServer (-1) "x" .ACTUAL [1] (by decide)

/-- C8: the rating stored by a successful `AddDocument` is the integer mean
of the supplied ratings, computed with C++ `int` division (truncation toward
zero). -/
theorem addDocument_stored_rating {s s' : SearchServer} (hreach : Reachable s)
    (document_id : Int) (document : String) (status : DocumentStatus)
    (ratings : List Int) (_hrs : ratings ≠ [])
    (h : s.AddDocument document_id document status ratings = .ok s') :
    mapFind? s'.documents_ document_id =
      some ⟨Int.tdiv ratings.sum (ratings.length : Int), status⟩ := by
  have hw := WF_of_Reachable hreach
  unfold SearchServer.AddDocument at h
  by_cases hg : document_id < 0 ∨ (mapFind? s.documents_ document_id).isSome = true
  · rw [if_pos hg] at h
    exact absurd h (by simp)
  · rw [if_neg hg] at h
    cases hsp : s.SplitIntoWordsNoStop document with
    | error e =>
      rw [hsp] at h
      exact absurd h (by simp)
    | ok words =>
      rw [hsp] at h
      have hA := Except.ok.inj h
      rw [← hA]
      show mapFind? (mapInsert? s.documents_ document_id
        ⟨ComputeAverageRating ratings, status⟩) document_id = _
      rw [mapFind?_insert? hw.docs_sorted, if_pos rfl]
      have hnone : mapFind? s.documents_ document_id = none := by
        rcases hq : mapFind? s.documents_ document_id with _ | d
        · rfl
        · exact absurd (Or.inr (by simp [hq])) hg
      rw [hnone]
      rfl

theorem addDocument_stored_rating_witness :
    mapFind? sCat.documents_ 0 =
      some ⟨Int.tdiv ([2] : List Int).sum ((([2] : List Int).length : Int)),
        DocumentStatus.ACTUAL⟩ :=
  addDocument_stored_rating Reachable_emptyServer 0 "cat" .ACTUAL [2]
    (by decide) rfl
